import Mathlib

/-!
# dtmdriver-kratos: the `driver` package

A shallow embedding of `driver.go` and a verification of its URI parser
(`ParseServerMethod`) and its registration dispatcher (`RegisterService`).

## Modelling conventions

* A Go `string` is a `List Char` (`Str`).  Every separator the driver searches
  for (`/`, `//`, `,`, `localhost`) is ASCII, and in UTF-8 an ASCII byte never
  occurs inside a multi-byte sequence, so searching and slicing by character
  agrees with Go's searching and slicing by byte.
* A Go `int` index is an `Int`; `-1` is the "not found" value of the `strings`
  package.  A slice expression whose bounds are out of range is a run-time
  panic, modelled by `none` (`sliceFrom`, `sliceTo`) and by `Result.panic`.
* Functions of the Go standard library that the driver calls (`strings.*`,
  `net/url.Parse`, `net.IP.*`) are transcribed in their own namespaces.
  The driver's own functions are parameterised over the URL parser, so the
  general theorems hold for every parser; `url.Parse` is used where a
  concrete input is evaluated.
* The outside world of `RegisterService` (network interfaces, host name,
  etcd and Consul client constructors, the backend's `Register`) is an
  explicit environment `Env`; the process-global gRPC resolver registry and
  the sequence of external calls made so far are an explicit state `World`.
-/

/-- A Go string: its sequence of characters. -/
abbrev Str := List Char

/-- Slice expression `s[i:]`: `none` when Go would panic (index out of range). -/
def sliceFrom (s : Str) (i : Int) : Option Str :=
  if 0 ≤ i ∧ i ≤ (s.length : Int) then some (s.drop i.toNat) else none

/-- Slice expression `s[:i]`: `none` when Go would panic (index out of range). -/
def sliceTo (s : Str) (i : Int) : Option Str :=
  if 0 ≤ i ∧ i ≤ (s.length : Int) then some (s.take i.toNat) else none

/-! ## Package `strings` -/

namespace strings

/-- Go `strings.HasPrefix(s, pre)`. -/
def HasPrefix (s pre : Str) : Bool := pre.isPrefixOf s

/-- Go `strings.HasSuffix(s, suf)`. -/
def HasSuffix (s suf : Str) : Bool := suf.reverse.isPrefixOf s.reverse

/-- Go `strings.Contains(s, substr)`: `substr` occurs at some position of `s`. -/
def Contains : Str → Str → Bool
  | [], substr => substr.isEmpty
  | c :: t, substr => substr.isPrefixOf (c :: t) || Contains t substr

/-- Go `strings.IndexByte(s, c)`: index of the first `c` in `s`, or `-1`. -/
def IndexByte : Str → Char → Int
  | [], _ => -1
  | x :: t, c =>
    if x = c then 0
    else
      let r := IndexByte t c
      if r = -1 then -1 else r + 1

/-- Go `strings.Index(s, substr)`: index of the first occurrence, or `-1`. -/
def Index : Str → Str → Int
  | [], substr => if substr.isEmpty then 0 else -1
  | c :: t, substr =>
    if substr.isPrefixOf (c :: t) then 0
    else
      let r := Index t substr
      if r = -1 then -1 else r + 1

/-- Go `strings.LastIndex(s, substr)`: index of the last occurrence, or `-1`. -/
def LastIndex : Str → Str → Int
  | [], substr => if substr.isEmpty then 0 else -1
  | c :: t, substr =>
    let r := LastIndex t substr
    if 0 ≤ r then r + 1
    else if substr.isPrefixOf (c :: t) then 0 else -1

/-- Loop of `strings.Count` for a non-empty `substr`: `skip` characters of an
occurrence already counted are still to be passed over. -/
def countFrom (substr : Str) : Str → Nat → Nat
  | [], _ => 0
  | _ :: t, skip + 1 => countFrom substr t skip
  | c :: t, 0 =>
    if substr.isPrefixOf (c :: t) then 1 + countFrom substr t (substr.length - 1)
    else countFrom substr t 0

/-- Go `strings.Count(s, substr)`: number of non-overlapping occurrences
(`len(s) + 1` for the empty `substr`). -/
def Count (s substr : Str) : Nat :=
  if substr.isEmpty then s.length + 1 else countFrom substr s 0

/-- Go `strings.Cut(s, sep)`: text before and after the first `sep`, and whether
`sep` was found. -/
def Cut (s sep : Str) : Str × Str × Bool :=
  let i := Index s sep
  if 0 ≤ i then (s.take i.toNat, s.drop (i.toNat + sep.length), true)
  else (s, [], false)

/-- Go `strings.TrimPrefix(s, pre)`. -/
def TrimPrefix (s pre : Str) : Str :=
  if HasPrefix s pre then s.drop pre.length else s

/-- Loop of `strings.Replace` for a non-empty `old`: scans `s` from the left,
replacing each occurrence found and resuming after it (`skip` counts the
characters of the replaced occurrence still to be passed over). -/
def replaceFrom (old new : Str) : Str → Nat → Str
  | [], _ => []
  | _ :: t, skip + 1 => replaceFrom old new t skip
  | c :: t, 0 =>
    if old.isPrefixOf (c :: t) then new ++ replaceFrom old new t (old.length - 1)
    else c :: replaceFrom old new t 0

/-- Go `strings.ReplaceAll(s, old, new)` for a non-empty `old` (the driver's
only call has `old = "localhost"`); for an empty `old` Go inserts `new`
before the first character and after every character. -/
def ReplaceAll (s old new : Str) : Str :=
  if old = new then s
  else if old.isEmpty then new ++ (s.flatMap fun c => c :: new)
  else replaceFrom old new s 0

/-- Loop of `strings.Split` for a non-empty `sep`: `acc` is the current field
in reverse, `skip` the characters of a separator still to be passed over. -/
def splitFrom (sep : Str) : Str → Nat → Str → List Str
  | [], _, acc => [acc.reverse]
  | _ :: t, skip + 1, acc => splitFrom sep t skip acc
  | c :: t, 0, acc =>
    if sep.isPrefixOf (c :: t) then acc.reverse :: splitFrom sep t (sep.length - 1) []
    else splitFrom sep t 0 (c :: acc)

/-- Go `strings.Split(s, sep)`: the fields of `s` between occurrences of `sep`
(for the empty `sep`, the characters of `s`). -/
def Split (s sep : Str) : List Str :=
  if sep.isEmpty then s.map fun c => [c] else splitFrom sep s 0 []

/-- Go `strings.ToLower` on ASCII text. -/
def ToLower (s : Str) : Str := s.map Char.toLower

end strings

/-! ## Package `net/url` (Go standard library)

`url.Parse` as of Go 1.19 to 1.21.  The fields `RawPath`, `RawFragment` and
`OmitHost` of `url.URL` are hints for printing a URL back; they are computed
after every check has passed, never make `Parse` fail, and the driver reads
none of them, so they are left out.  Percent-decoding yields bytes: a run of
decoded bytes is read as UTF-8, as Go reads the string it builds from them.  A
decoded byte that is not part of a UTF-8 sequence has no place in a list of
characters; it is shown as U+FFFD, the rune Go itself reads there. -/

namespace url

/-- The errors `url.Parse` reports (the `*url.Error` wrapper is left implicit). -/
inductive Error where
  | invalidControlCharacter
  | emptyURL
  | missingProtocolScheme
  | invalidURIForRequest
  | firstPathSegmentColon
  | escapeError (s : Str)
  | invalidHostError (s : Str)
  | missingBracket
  | invalidPort (colonPort : Str)
  | invalidUserinfo
  deriving DecidableEq, Repr

/-- Go `url.Userinfo`. -/
structure Userinfo where
  username : Str
  password : Str
  passwordSet : Bool
  deriving DecidableEq, Repr

/-- Go `url.URL` (fields filled in by `Parse`). -/
structure URL where
  Scheme : Str := []
  Opaque : Str := []
  User : Option Userinfo := none
  Host : Str := []
  Path : Str := []
  ForceQuery : Bool := false
  RawQuery : Str := []
  Fragment : Str := []
  deriving DecidableEq, Repr

/-- The `encoding` modes of `net/url`. -/
inductive encoding where
  | encodePath
  | encodePathSegment
  | encodeHost
  | encodeZone
  | encodeUserPassword
  | encodeQueryComponent
  | encodeFragment
  deriving DecidableEq, Repr

open encoding

def isLetter (c : Char) : Bool :=
  ('a' ≤ c && c ≤ 'z') || ('A' ≤ c && c ≤ 'Z')

def isDigit (c : Char) : Bool := '0' ≤ c && c ≤ '9'

def ishex (c : Char) : Bool :=
  isDigit c || ('a' ≤ c && c ≤ 'f') || ('A' ≤ c && c ≤ 'F')

def unhex (c : Char) : Nat :=
  if isDigit c then c.toNat - '0'.toNat
  else if 'a' ≤ c && c ≤ 'f' then c.toNat - 'a'.toNat + 10
  else if 'A' ≤ c && c ≤ 'F' then c.toNat - 'A'.toNat + 10
  else 0

/-- Go `shouldEscape(c, mode)`. -/
def shouldEscape (c : Char) (mode : encoding) : Bool :=
  if isLetter c || isDigit c then false
  else if (mode = encodeHost || mode = encodeZone) &&
      c ∈ ['!', '$', '&', '\'', '(', ')', '*', '+', ',', ';', '=', ':', '[', ']', '<', '>', '"'] then
    false
  else if c ∈ ['-', '_', '.', '~'] then false
  else if c ∈ ['$', '&', '+', ',', '/', ':', ';', '=', '?', '@'] &&
      mode ∈ [encodePath, encodePathSegment, encodeUserPassword, encodeQueryComponent,
        encodeFragment] then
    match mode with
    | encodePath => c = '?'
    | encodePathSegment => c = '/' || c = ';' || c = ',' || c = '?'
    | encodeUserPassword => c = '@' || c = '/' || c = '?' || c = ':'
    | encodeQueryComponent => true
    | _ => false
  else if mode = encodeFragment && c ∈ ['!', '(', ')', '*'] then false
  else true

/-- First loop of Go `unescape`: checks that every `%` starts a well-formed
escape that the mode admits, and that a host holds no forbidden character. -/
def unescapeCheck (mode : encoding) : Str → Option Error
  | [] => none
  | [c] =>
    if c = '%' then some (.escapeError [c])
    else if c = '+' then none
    else if (mode = encodeHost || mode = encodeZone) && c.toNat < 0x80 &&
        shouldEscape c encodeHost then some (.invalidHostError [c])
    else none
  | [c, a] =>
    if c = '%' then some (.escapeError [c, a])
    else if c = '+' then unescapeCheck mode [a]
    else if (mode = encodeHost || mode = encodeZone) && c.toNat < 0x80 &&
        shouldEscape c encodeHost then some (.invalidHostError [c])
    else unescapeCheck mode [a]
  | c :: a :: b :: t =>
    if c = '%' then
      if !ishex a || !ishex b then some (.escapeError [c, a, b])
      else if mode = encodeHost && unhex a < 8 && [c, a, b] ≠ ['%', '2', '5'] then
        some (.escapeError [c, a, b])
      else if mode = encodeZone && [c, a, b] ≠ ['%', '2', '5'] &&
          unhex a * 16 + unhex b ≠ ' '.toNat &&
          shouldEscape (Char.ofNat (unhex a * 16 + unhex b)) encodeHost then
        some (.escapeError [c, a, b])
      else unescapeCheck mode t
    else if c = '+' then unescapeCheck mode (a :: b :: t)
    else if (mode = encodeHost || mode = encodeZone) && c.toNat < 0x80 &&
        shouldEscape c encodeHost then some (.invalidHostError [c])
    else unescapeCheck mode (a :: b :: t)

/-- Go `utf8.RuneError`. -/
def RuneError : Char := Char.ofNat 0xFFFD

/-- A UTF-8 continuation byte between `lo` and `hi`. -/
def inRange (lo hi : Nat) (b : Option Nat) : Bool :=
  match b with
  | some x => lo ≤ x && x ≤ hi
  | none => false

/-- Go `utf8.DecodeRune` on a non-empty sequence of bytes: the rune its first
bytes encode and their number, or `RuneError` and 1. -/
def DecodeRune (b0 : Nat) (t : List Nat) : Char × Nat :=
  let b1 := t[0]?.getD 0
  let b2 := t[1]?.getD 0
  let b3 := t[2]?.getD 0
  if b0 < 0x80 then (Char.ofNat b0, 1)
  else if 0xC2 ≤ b0 ∧ b0 ≤ 0xDF then
    if inRange 0x80 0xBF t[0]? then (Char.ofNat ((b0 - 0xC0) * 64 + (b1 - 0x80)), 2)
    else (RuneError, 1)
  else if 0xE0 ≤ b0 ∧ b0 ≤ 0xEF then
    if inRange (if b0 = 0xE0 then 0xA0 else 0x80) (if b0 = 0xED then 0x9F else 0xBF) t[0]? ∧
        inRange 0x80 0xBF t[1]? then
      (Char.ofNat ((b0 - 0xE0) * 4096 + (b1 - 0x80) * 64 + (b2 - 0x80)), 3)
    else (RuneError, 1)
  else if 0xF0 ≤ b0 ∧ b0 ≤ 0xF4 then
    if inRange (if b0 = 0xF0 then 0x90 else 0x80) (if b0 = 0xF4 then 0x8F else 0xBF) t[0]? ∧
        inRange 0x80 0xBF t[1]? ∧ inRange 0x80 0xBF t[2]? then
      (Char.ofNat ((b0 - 0xF0) * 262144 + (b1 - 0x80) * 4096 + (b2 - 0x80) * 64 + (b3 - 0x80)), 4)
    else (RuneError, 1)
  else (RuneError, 1)

/-- The characters a sequence of bytes reads as (`skip` bytes of the rune just
read are still to be passed over). -/
def decodeUTF8 : List Nat → Nat → Str
  | [], _ => []
  | _ :: t, skip + 1 => decodeUTF8 t skip
  | b :: t, 0 => (DecodeRune b t).1 :: decodeUTF8 t ((DecodeRune b t).2 - 1)

/-- Second loop of Go `unescape`: decodes the escapes (run after the check).
`pending` holds the bytes decoded from the escapes just before the current
position; they are read as UTF-8 when the run of escapes ends. -/
def unescapeDecode (mode : encoding) : Str → List Nat → Str
  | c :: a :: b :: t, pending =>
    if c = '%' then unescapeDecode mode t (pending ++ [unhex a * 16 + unhex b])
    else if c = '+' then
      decodeUTF8 pending 0 ++
        (if mode = encodeQueryComponent then ' ' else '+') :: unescapeDecode mode (a :: b :: t) []
    else decodeUTF8 pending 0 ++ c :: unescapeDecode mode (a :: b :: t) []
  | c :: t, pending =>
    if c = '+' then
      decodeUTF8 pending 0 ++
        (if mode = encodeQueryComponent then ' ' else '+') :: unescapeDecode mode t []
    else decodeUTF8 pending 0 ++ c :: unescapeDecode mode t []
  | [], pending => decodeUTF8 pending 0

/-- Go `unescape(s, mode)`. -/
def unescape (s : Str) (mode : encoding) : Except Error Str :=
  match unescapeCheck mode s with
  | some e => .error e
  | none => .ok (unescapeDecode mode s [])

/-- Loop of Go `getScheme`: `i` is the index of the first character of `s`
within `rawURL`. -/
def getSchemeFrom (rawURL : Str) : Str → Nat → Except Error (Str × Str)
  | [], _ => .ok ([], rawURL)
  | c :: t, i =>
    if isLetter c then getSchemeFrom rawURL t (i + 1)
    else if isDigit c || c = '+' || c = '-' || c = '.' then
      if i = 0 then .ok ([], rawURL) else getSchemeFrom rawURL t (i + 1)
    else if c = ':' then
      if i = 0 then .error .missingProtocolScheme
      else .ok (rawURL.take i, rawURL.drop (i + 1))
    else .ok ([], rawURL)

/-- Go `getScheme(rawURL)`: splits off a leading `scheme:`. -/
def getScheme (rawURL : Str) : Except Error (Str × Str) :=
  getSchemeFrom rawURL rawURL 0

/-- Go `stringContainsCTLByte`. -/
def stringContainsCTLByte (s : Str) : Bool :=
  s.any fun c => c.toNat < 0x20 || c.toNat = 0x7f

/-- Go `validOptionalPort`: empty, or `:` followed by digits. -/
def validOptionalPort (port : Str) : Bool :=
  match port with
  | [] => true
  | c :: t => c = ':' && t.all isDigit

/-- Go `validUserinfo`. -/
def validUserinfo (s : Str) : Bool :=
  s.all fun r => isLetter r || isDigit r ||
    r ∈ ['-', '.', '_', ':', '~', '!', '$', '&', '\'', '(', ')', '*', '+', ',', ';', '=', '%', '@']

/-- Go `parseHost`. -/
def parseHost (host : Str) : Except Error Str :=
  if strings.HasPrefix host ['['] then
    let i := strings.LastIndex host [']']
    if i < 0 then .error .missingBracket
    else
      let colonPort := host.drop (i.toNat + 1)
      if !validOptionalPort colonPort then .error (.invalidPort colonPort)
      else
        let zone := strings.Index (host.take i.toNat) ['%', '2', '5']
        if 0 ≤ zone then
          match unescape (host.take zone.toNat) encodeHost with
          | .error e => .error e
          | .ok host1 =>
            match unescape ((host.take i.toNat).drop zone.toNat) encodeZone with
            | .error e => .error e
            | .ok host2 =>
              match unescape (host.drop i.toNat) encodeHost with
              | .error e => .error e
              | .ok host3 => .ok (host1 ++ host2 ++ host3)
        else unescape host encodeHost
  else
    let i := strings.LastIndex host [':']
    if i ≠ -1 ∧ !validOptionalPort (host.drop i.toNat) then
      .error (.invalidPort (host.drop i.toNat))
    else unescape host encodeHost

/-- Go `parseAuthority`. -/
def parseAuthority (authority : Str) : Except Error (Option Userinfo × Str) :=
  let i := strings.LastIndex authority ['@']
  match (if i < 0 then parseHost authority else parseHost (authority.drop (i.toNat + 1))) with
  | .error e => .error e
  | .ok host =>
    if i < 0 then .ok (none, host)
    else
      let userinfo := authority.take i.toNat
      if !validUserinfo userinfo then .error .invalidUserinfo
      else if !strings.Contains userinfo [':'] then
        match unescape userinfo encodeUserPassword with
        | .error e => .error e
        | .ok username => .ok (some ⟨username, [], false⟩, host)
      else
        let (username, password, _) := strings.Cut userinfo [':']
        match unescape username encodeUserPassword with
        | .error e => .error e
        | .ok username =>
          match unescape password encodeUserPassword with
          | .error e => .error e
          | .ok password => .ok (some ⟨username, password, true⟩, host)

/-- Go `parse(rawURL, viaRequest)`. -/
def parse (rawURL : Str) (viaRequest : Bool) : Except Error URL :=
  if stringContainsCTLByte rawURL then .error .invalidControlCharacter
  else if rawURL = [] ∧ viaRequest then .error .emptyURL
  else if rawURL = ['*'] then .ok { Path := ['*'] }
  else
    match getScheme rawURL with
    | .error e => .error e
    | .ok (scheme, rest) =>
      let scheme := strings.ToLower scheme
      let (rest, forceQuery, rawQuery) :=
        if strings.HasSuffix rest ['?'] ∧ strings.Count rest ['?'] = 1 then
          (rest.take (rest.length - 1), true, [])
        else ((strings.Cut rest ['?']).1, false, (strings.Cut rest ['?']).2.1)
      if !strings.HasPrefix rest ['/'] ∧ scheme ≠ [] then
        .ok { Scheme := scheme, ForceQuery := forceQuery, RawQuery := rawQuery, Opaque := rest }
      else if !strings.HasPrefix rest ['/'] ∧ viaRequest then .error .invalidURIForRequest
      else if !strings.HasPrefix rest ['/'] ∧
          strings.Contains (strings.Cut rest ['/']).1 [':'] then
        .error .firstPathSegmentColon
      else if (scheme ≠ [] ∨ (!viaRequest ∧ !strings.HasPrefix rest ['/', '/', '/'])) ∧
          strings.HasPrefix rest ['/', '/'] then
        let authority0 := rest.drop 2
        let i := strings.Index authority0 ['/']
        let (authority, rest) :=
          if 0 ≤ i then (authority0.take i.toNat, authority0.drop i.toNat) else (authority0, [])
        match parseAuthority authority with
        | .error e => .error e
        | .ok (user, host) =>
          match unescape rest encodePath with
          | .error e => .error e
          | .ok path =>
            .ok { Scheme := scheme, ForceQuery := forceQuery, RawQuery := rawQuery,
                  User := user, Host := host, Path := path }
      else
        match unescape rest encodePath with
        | .error e => .error e
        | .ok path =>
          .ok { Scheme := scheme, ForceQuery := forceQuery, RawQuery := rawQuery, Path := path }

/-- Go `url.Parse(rawURL)`. -/
def Parse (rawURL : Str) : Except Error URL :=
  let (u, frag, _) := strings.Cut rawURL ['#']
  match parse u false with
  | .error e => .error e
  | .ok url =>
    if frag = [] then .ok url
    else
      match unescape frag encodeFragment with
      | .error e => .error e
      | .ok f => .ok { url with Fragment := f }

end url

/-! ## Package `net` (Go standard library): the part `GetLocalIP` uses -/

namespace net

/-- Go `net.IP`: a slice of bytes, 4 long for IPv4 and 16 long for IPv6. -/
abbrev IP := List Nat

def IPv4len : Nat := 4

def IPv6len : Nat := 16

def v4InV6Prefix : IP := [0, 0, 0, 0, 0, 0, 0, 0, 0, 0, 0xff, 0xff]

def IPv6loopback : IP := [0, 0, 0, 0, 0, 0, 0, 0, 0, 0, 0, 0, 0, 0, 0, 1]

def isZeros (p : IP) : Bool := p.all fun b => b = 0

/-- Go `IP.To4`: the 4-byte form of an IPv4 address, `none` for Go's `nil`. -/
def IP.To4 (ip : IP) : Option IP :=
  if ip.length = IPv4len then some ip
  else if ip.length = IPv6len ∧ isZeros (ip.take 10) ∧ ip[10]? = some 0xff ∧
      ip[11]? = some 0xff then
    some ((ip.drop 12).take 4)
  else none

/-- Go `IP.Equal`. -/
def IP.Equal (ip x : IP) : Bool :=
  if ip.length = x.length then ip = x
  else if ip.length = IPv4len ∧ x.length = IPv6len then
    x.take 12 = v4InV6Prefix ∧ ip = x.drop 12
  else if ip.length = IPv6len ∧ x.length = IPv4len then
    ip.take 12 = v4InV6Prefix ∧ ip.drop 12 = x
  else false

/-- Go `IP.IsLoopback`. -/
def IP.IsLoopback (ip : IP) : Bool :=
  match ip.To4 with
  | some ip4 => ip4.head? = some 127
  | none => ip.Equal IPv6loopback

/-- Go `itoa.Uitoa`: decimal digits of an unsigned number. -/
def Uitoa (n : Nat) : Str := Nat.toDigits 10 n

/-- Go `IP.String` on an address that has a 4-byte form: dotted decimal.
`GetLocalIP` calls `String` only after `To4() != nil`; the text forms of the
other addresses (`<nil>`, hexadecimal, IPv6) are not reached from the driver
and are all rendered as `?` here. -/
def IP.String (ip : IP) : Str :=
  match ip.To4 with
  | some [a, b, c, d] => Uitoa a ++ '.' :: Uitoa b ++ '.' :: Uitoa c ++ '.' :: Uitoa d
  | _ => ['?']

/-- Go `net.Addr`: an interface address is an `*net.IPNet` or of another type. -/
inductive Addr where
  | IPNet (ip : IP) (mask : List Nat)
  | other (network text : Str)
  deriving DecidableEq, Repr

end net

/-! ## Package `driver` (`driver.go`) -/

namespace driver

/-- The constants of `driver.go`. -/
def DriverName : Str := "dtm-driver-kratos".toList

def DefaultScheme : Str := "discovery".toList

def EtcdScheme : Str := "etcd".toList

def ConsulScheme : Str := "consul".toList

/-- A Go `error` value returned by the driver. -/
inductive GoError where
  /-- An error of `url.Parse`, returned verbatim -/
  | url (e : url.Error)
  /-- An error made by `fmt.Errorf`, with its message -/
  | errorf (message : Str)
  /-- An error of a backend library (etcd, Consul, the registry), returned verbatim -/
  | backend (message : Str)
  deriving DecidableEq, Repr

/-- Outcome of a call of `ParseServerMethod`: the three results Go returns
(`err = none` is Go's `nil`), or a run-time panic. -/
inductive Result where
  | ret (server method : Str) (err : Option GoError)
  | panic
  deriving DecidableEq, Repr

/-- Go `(*kratosDriver).GetName`. -/
def GetName : Str := DriverName

/-- Go `(*kratosDriver).RegisterAddrResolver`: its body is empty. -/
def RegisterAddrResolver : Unit := ()

/-- Go `(*kratosDriver).ParseServerMethod`, over the URL parser `urlParse`
(`url.Parse` in the program). -/
def ParseServerMethod (urlParse : Str → Except url.Error url.URL) (uri : Str) : Result :=
  if !strings.Contains uri "//".toList then
    let sep := strings.IndexByte uri '/'
    if sep = -1 then
      .ret [] [] (some (.errorf ("bad url: '".toList ++ uri ++ "'. no '/' found".toList)))
    else
      match sliceTo uri sep, sliceFrom uri sep with
      | some server, some method => .ret server method none
      | _, _ => .panic
  else
    match urlParse uri with
    | .error _ => .ret [] [] none
    | .ok u =>
      match sliceFrom u.Path 1 with
      | none => .panic
      | some tail =>
        let index := strings.IndexByte tail '/' + 1
        match sliceTo u.Path index, sliceFrom u.Path index with
        | some head, some method =>
          .ret (u.Scheme ++ "://".toList ++ u.Host ++ head) method none
        | _, _ => .panic

/-- Kratos `registry.ServiceInstance`. -/
structure ServiceInstance where
  ID : Str
  Name : Str
  Version : Str := []
  Metadata : List (Str × Str) := []
  Endpoints : List Str
  deriving DecidableEq, Repr

/-- The registries the driver builds: `etcd.New(client)` over an etcd client
with the given endpoints, or `consul.New(client, options...)` over a Consul
client at the given address. -/
inductive Registry where
  | etcd (endpoints : List Str)
  | consul (address : Str) (healthCheck : Bool) (healthCheckInterval : Nat)
      (heartbeat : Bool) (timeoutSeconds : Nat)
  deriving DecidableEq, Repr

/-- The resolver builder `discovery.NewBuilder(registry, discovery.WithInsecure(b))`. -/
structure Builder where
  registry : Registry
  insecure : Bool
  deriving DecidableEq, Repr

/-- Kratos `(*builder).Scheme` of the discovery resolver: the constant `discovery`. -/
def Builder.Scheme (_ : Builder) : Str := "discovery".toList

/-- The calls the driver makes to the outside. -/
inductive Call where
  | InterfaceAddrs
  | etcdNew (endpoints : List Str)
  | consulNewClient (address : Str)
  | resolverRegister (b : Builder)
  | Register (r : Registry) (instance_ : ServiceInstance)
  deriving DecidableEq, Repr

/-- What the outside answers. -/
structure Env where
  /-- The parser, `url.Parse` in the program -/
  urlParse : Str → Except url.Error url.URL
  /-- The result of `os.Hostname()` when the package is loaded -/
  Hostname : Except Str Str
  /-- The result of `net.InterfaceAddrs()` -/
  InterfaceAddrs : Except Str (List net.Addr)
  /-- The error of `etcdAPI.New` on a configuration with these endpoints, `none` for `nil` -/
  etcdNew : List Str → Option Str
  /-- The error of `consulAPI.NewClient` on a configuration with this address, `none` for `nil` -/
  consulNewClient : Str → Option Str
  /-- The error of the registry's `Register(ctx, instance)`, `none` for `nil` -/
  Register : Registry → ServiceInstance → Option Str

/-- The process state the driver changes: the gRPC resolver registry (a map
from scheme to builder, as an association list read from the front) and the
calls made to the outside so far, oldest first. -/
structure World where
  resolvers : List (Str × Builder)
  calls : List Call
  deriving DecidableEq, Repr

/-- Records a call. -/
def World.call (w : World) (c : Call) : World := { w with calls := w.calls ++ [c] }

/-- The package variable `id, _ = os.Hostname()`: the host name, or the empty
string that `os.Hostname` returns along with an error. -/
def id (env : Env) : Str :=
  match env.Hostname with
  | .ok name => name
  | .error _ => []

end driver

namespace resolver

/-- gRPC `resolver.Register(b)`: `m[b.Scheme()] = b`. -/
def Register (b : driver.Builder) (w : driver.World) : driver.World :=
  { resolvers := (b.Scheme, b) :: w.resolvers.filter (fun p => p.1 ≠ b.Scheme),
    calls := w.calls ++ [.resolverRegister b] }

/-- gRPC `resolver.Get(scheme)`: the builder registered for `scheme`, if any. -/
def Get (scheme : Str) (w : driver.World) : Option driver.Builder :=
  (w.resolvers.find? fun p => p.1 = scheme).map Prod.snd

end resolver

namespace driver

/-- Loop of `GetLocalIP` over the interface addresses. -/
def firstIPv4 : List net.Addr → Str
  | [] => []
  | .IPNet ip _ :: rest =>
    if !ip.IsLoopback then
      if ip.To4 ≠ none then ip.String else firstIPv4 rest
    else firstIPv4 rest
  | .other _ _ :: rest => firstIPv4 rest

/-- Go `GetLocalIP`: the first non-loopback IPv4 interface address, or the
empty string. -/
def GetLocalIP (env : Env) (w : World) : Str × World :=
  match env.InterfaceAddrs with
  | .error _ => ([], w.call .InterfaceAddrs)
  | .ok addrs => (firstIPv4 addrs, w.call .InterfaceAddrs)

/-- Go `(*kratosDriver).RegisterService`: the error returned (`none` for `nil`)
and the state afterwards. -/
def RegisterService (env : Env) (target endpoint : Str) (w : World) : Option GoError × World :=
  if target = [] then (none, w)
  else
    match env.urlParse target with
    | .error err => (some (.url err), w)
    | .ok u =>
      let name := strings.TrimPrefix u.Path "/".toList
      let instanceId := name ++ "_".toList ++ id env
      let (endpoint, w) :=
        if strings.Contains endpoint "localhost".toList then
          let (localIp, w) := GetLocalIP env w
          if localIp ≠ [] then (strings.ReplaceAll endpoint "localhost".toList localIp, w)
          else (endpoint, w)
        else (endpoint, w)
      if u.Scheme = DefaultScheme ∨ u.Scheme = EtcdScheme then
        let registerInstance : ServiceInstance :=
          { ID := instanceId,
            Name := strings.TrimPrefix u.Path "/".toList,
            Endpoints := strings.Split endpoint ",".toList }
        let endpoints := strings.Split u.Host ",".toList
        let w := w.call (.etcdNew endpoints)
        match env.etcdNew endpoints with
        | some err => (some (.backend err), w)
        | none =>
          let registry := Registry.etcd endpoints
          let w := resolver.Register { registry := registry, insecure := true } w
          ((env.Register registry registerInstance).map .backend,
            w.call (.Register registry registerInstance))
      else if u.Scheme = ConsulScheme then
        let registerInstance : ServiceInstance :=
          { ID := instanceId,
            Name := strings.TrimPrefix u.Path "/".toList,
            Endpoints := strings.Split endpoint ",".toList }
        let w := w.call (.consulNewClient u.Host)
        match env.consulNewClient u.Host with
        | some err => (some (.backend err), w)
        | none =>
          let registry := Registry.consul u.Host true 10 true 20
          let w := resolver.Register { registry := registry, insecure := true } w
          ((env.Register registry registerInstance).map .backend,
            w.call (.Register registry registerInstance))
      else (some (.errorf ("unknown scheme: ".toList ++ u.Scheme)), w)

end driver

/-! ## Vocabulary of the statements about `RegisterService` -/

deriving instance DecidableEq for Except

namespace driver

/-- The instances handed to a backend's `Register` so far, oldest first. -/
def World.registered (w : World) : List ServiceInstance :=
  w.calls.filterMap fun c =>
    match c with
    | .Register _ i => some i
    | _ => none

/-- The target's scheme is one of the supported three and the construction of
the client of its backend succeeds: `etcdAPI.New` on the comma-separated host
for `discovery` and `etcd`, `consulAPI.NewClient` on the host for `consul`. -/
def clientConstructed (env : Env) (u : url.URL) : Prop :=
  ((u.Scheme = DefaultScheme ∨ u.Scheme = EtcdScheme) ∧
      env.etcdNew (strings.Split u.Host ",".toList) = none) ∨
    (u.Scheme = ConsulScheme ∧ env.consulNewClient u.Host = none)

/-- A host for the examples: named `box`, with a loopback interface and one
at 10.1.2.3, where `url.Parse` parses and every backend call succeeds. -/
def exampleEnv : Env where
  urlParse := url.Parse
  Hostname := .ok "box".toList
  InterfaceAddrs :=
    .ok [.IPNet [127, 0, 0, 1] [255, 0, 0, 0], .IPNet [10, 1, 2, 3] [255, 255, 255, 0]]
  etcdNew := fun _ => none
  consulNewClient := fun _ => none
  Register := fun _ _ => none

/-- A process in which no resolver is registered and no call has been made. -/
def freshWorld : World := { resolvers := [], calls := [] }

end driver

/-! ## URIs written with unreserved characters only -/

namespace url

/-- The unreserved characters of RFC 3986 that are ASCII: letters, digits,
`-`, `.`, `_` and `~`. -/
def unreserved (c : Char) : Bool :=
  isLetter c || isDigit c || c = '-' || c = '.' || c = '_' || c = '~'

/-- A scheme name: a letter followed by letters, digits, `+`, `-` and `.`. -/
def schemeName : Str → Bool
  | [] => false
  | c :: t => isLetter c && t.all fun x => isLetter x || isDigit x || x = '+' || x = '-' || x = '.'

/-- A path of segments written with unreserved characters: empty, or a `/`
followed by unreserved characters and further `/`. -/
def plainPath : Str → Bool
  | [] => true
  | c :: t => c = '/' && t.all fun x => unreserved x || x = '/'

end url

/-! ## Facts about the `strings` functions -/

namespace strings

theorem IndexByte_ge (s : Str) (c : Char) : -1 ≤ IndexByte s c := by
  induction s with
  | nil => simp [IndexByte]
  | cons x t ih =>
    simp only [IndexByte]
    split_ifs <;> omega

theorem IndexByte_le (s : Str) (c : Char) : IndexByte s c < (s.length : Int) := by
  induction s with
  | nil => simp [IndexByte]
  | cons x t ih =>
    simp only [IndexByte, List.length_cons, Nat.cast_add, Nat.cast_one]
    split_ifs <;> omega

theorem IndexByte_of_not_mem {s : Str} {c : Char} (h : c ∉ s) : IndexByte s c = -1 := by
  induction s with
  | nil => rfl
  | cons x t ih =>
    rw [List.mem_cons, not_or] at h
    have hx : ¬ x = c := fun e => h.1 e.symm
    simp [IndexByte, hx, ih h.2]

theorem IndexByte_append_cons {s : Str} {c : Char} (h : c ∉ s) (r : Str) :
    IndexByte (s ++ c :: r) c = (s.length : Int) := by
  induction s with
  | nil => simp [IndexByte]
  | cons x t ih =>
    rw [List.mem_cons, not_or] at h
    have hx : ¬ x = c := fun e => h.1 e.symm
    have hne : ¬ ((t.length : Int) = -1) := by omega
    simp [IndexByte, hx, ih h.2, hne]

end strings

theorem sliceTo_length_append (a b : Str) : sliceTo (a ++ b) (a.length : Int) = some a := by
  simp [sliceTo]

theorem sliceFrom_length_append (a b : Str) : sliceFrom (a ++ b) (a.length : Int) = some b := by
  simp [sliceFrom]

namespace strings

theorem Contains_iff_isInfix (s substr : Str) : Contains s substr = true ↔ substr <:+: s := by
  induction s with
  | nil => simp [Contains]
  | cons c t ih => simp [Contains, List.infix_cons_iff, ih]

theorem Contains_eq_false_of_isInfix {e s substr : Str} (he : e <:+: s)
    (hs : Contains s substr = false) : Contains e substr = false := by
  by_contra h
  rw [Bool.not_eq_false, Contains_iff_isInfix] at h
  have := (Contains_iff_isInfix s substr).2 (h.trans he)
  rw [hs] at this
  cases this

/-- Passing over `k` characters is dropping them. -/
theorem replaceFrom_skip (old new : Str) (s : Str) (k : Nat) :
    replaceFrom old new s k = replaceFrom old new (s.drop k) 0 := by
  induction s generalizing k with
  | nil => simp [replaceFrom]
  | cons c t ih =>
    cases k with
    | zero => rfl
    | succ k => simpa [replaceFrom] using ih k

theorem replaceFrom_of_isPrefix {old new s : Str} (hold : old ≠ []) (h : old <+: s) :
    replaceFrom old new s 0 = new ++ replaceFrom old new (s.drop old.length) 0 := by
  cases s with
  | nil =>
    exact absurd (List.prefix_nil.1 h) hold
  | cons c t =>
    have hp : old.isPrefixOf (c :: t) = true := List.isPrefixOf_iff_prefix.2 h
    have hl : old.length - 1 + 1 = old.length := by
      have := List.length_pos.2 hold
      omega
    rw [replaceFrom, if_pos hp, replaceFrom_skip old new t (old.length - 1)]
    congr 2
    rw [← hl, List.drop_succ_cons, hl]

theorem replaceFrom_of_not_isPrefix {old new : Str} {c : Char} {t : Str}
    (h : ¬ old <+: c :: t) :
    replaceFrom old new (c :: t) 0 = c :: replaceFrom old new t 0 := by
  have hp : ¬ old.isPrefixOf (c :: t) = true := fun e => h (List.isPrefixOf_iff_prefix.1 e)
  rw [replaceFrom, if_neg hp]

/-- A text free of the first character of `new` that starts the replaced
string already starts the original. -/
theorem prefix_of_prefix_replaceFrom {old new : Str} {b : Char} {new' : Str}
    (hold : old ≠ []) (hnew : new = b :: new') :
    ∀ (w s : Str), b ∉ w → w <+: replaceFrom old new s 0 → w <+: s := by
  intro w
  induction w with
  | nil => intro s _ _; exact List.nil_prefix
  | cons x w ih =>
    intro s hb hw
    rw [List.mem_cons, not_or] at hb
    cases s with
    | nil =>
      rw [replaceFrom] at hw
      exact absurd (List.prefix_nil.1 hw) (List.cons_ne_nil _ _)
    | cons c t =>
      by_cases hp : old <+: c :: t
      · rw [replaceFrom_of_isPrefix hold hp, hnew, List.cons_append, List.cons_prefix_cons] at hw
        exact absurd hw.1.symm hb.1
      · rw [replaceFrom_of_not_isPrefix hp, List.cons_prefix_cons] at hw
        exact List.cons_prefix_cons.2 ⟨hw.1, ih t hb.2 hw.2⟩

theorem infix_append_of_disjoint {old : Str} (hold : old ≠ []) :
    ∀ (new r : Str), (∀ c ∈ new, c ∉ old) → old <:+: new ++ r → old <:+: r := by
  intro new
  induction new with
  | nil => intro r _ h; simpa using h
  | cons b new' ih =>
    intro r hd h
    rw [List.cons_append, List.infix_cons_iff] at h
    rcases h with h | h
    · obtain ⟨a, old', rfl⟩ := List.exists_cons_of_ne_nil hold
      rw [List.cons_prefix_cons] at h
      exact absurd (List.mem_cons_self a old') (h.1 ▸ hd b (List.mem_cons_self b new'))
    · exact ih r (fun c hc => hd c (List.mem_cons_of_mem b hc)) h

/-- When `new` is not empty and shares no character with `old`, replacing
every `old` by `new` leaves no `old` behind. -/
theorem not_infix_replaceFrom {old new : Str} (hold : old ≠ []) (hnew : new ≠ [])
    (hd : ∀ c ∈ new, c ∉ old) (n : Nat) :
    ∀ s : Str, s.length ≤ n → ¬ old <:+: replaceFrom old new s 0 := by
  obtain ⟨b, new', hb⟩ := List.exists_cons_of_ne_nil hnew
  obtain ⟨a, old', ha⟩ := List.exists_cons_of_ne_nil hold
  induction n with
  | zero =>
    intro s hs h
    have : s = [] := List.length_eq_zero.1 (Nat.le_zero.1 hs)
    subst this
    rw [replaceFrom] at h
    exact hold (List.infix_nil.1 h)
  | succ n ih =>
    intro s hs h
    cases s with
    | nil =>
      rw [replaceFrom] at h
      exact hold (List.infix_nil.1 h)
    | cons c t =>
      by_cases hp : old <+: c :: t
      · rw [replaceFrom_of_isPrefix hold hp] at h
        have hlen : ((c :: t).drop old.length).length ≤ n := by
          have := List.length_pos.2 hold
          simp only [List.length_drop, List.length_cons] at hs ⊢
          omega
        exact ih _ hlen (infix_append_of_disjoint hold new _ hd h)
      · rw [replaceFrom_of_not_isPrefix hp, List.infix_cons_iff] at h
        have ht : t.length ≤ n := by
          simp only [List.length_cons] at hs
          omega
        rcases h with h | h
        · apply hp
          subst ha
          rw [List.cons_prefix_cons] at h ⊢
          have hbo : b ∉ old' := fun hm =>
            hd b (hb ▸ List.mem_cons_self b new') (List.mem_cons_of_mem a hm)
          exact ⟨h.1, prefix_of_prefix_replaceFrom (List.cons_ne_nil a old') hb old' t hbo h.2⟩
        · exact ih t ht h

theorem Contains_ReplaceAll_eq_false {old new : Str} (hold : old ≠ []) (hnew : new ≠ [])
    (hd : ∀ c ∈ new, c ∉ old) (s : Str) :
    Contains (ReplaceAll s old new) old = false := by
  have hne : old ≠ new := by
    rintro rfl
    obtain ⟨b, new', hb⟩ := List.exists_cons_of_ne_nil hnew
    exact hd b (hb ▸ List.mem_cons_self b new') (hb ▸ List.mem_cons_self b new')
  have hemp : old.isEmpty = false := by
    cases old with
    | nil => exact absurd rfl hold
    | cons a t => rfl
  rw [ReplaceAll, if_neg hne, hemp]
  by_contra h
  rw [Bool.not_eq_false, Contains_iff_isInfix] at h
  exact not_infix_replaceFrom hold hnew hd s.length s (Nat.le_refl _) (by simpa using h)

/-- Every field that `Split` returns is a piece of the text split. -/
theorem infix_of_mem_splitFrom (sep : Str) (e : Str) :
    ∀ (s : Str) (k : Nat) (acc : Str), (k ≠ 0 → acc = []) →
      e ∈ splitFrom sep s k acc → e <:+: acc.reverse ++ s := by
  intro s
  induction s with
  | nil =>
    intro k acc _ h
    simp only [splitFrom, List.mem_singleton] at h
    subst h
    simp
  | cons c t ih =>
    intro k acc hk h
    cases k with
    | succ k =>
      have hacc : acc = [] := hk (Nat.succ_ne_zero k)
      subst hacc
      rw [splitFrom] at h
      have := ih k [] (fun _ => rfl) h
      simp only [List.reverse_nil, List.nil_append] at this ⊢
      exact List.infix_cons this
    | zero =>
      rw [splitFrom] at h
      split_ifs at h
      · rw [List.mem_cons] at h
        rcases h with h | h
        · subst h
          exact List.infix_append' [] _ _
        · have := ih _ [] (fun _ => rfl) h
          simp only [List.reverse_nil, List.nil_append] at this
          exact (List.infix_cons this).trans
            (List.infix_append' acc.reverse (c :: t) [] |>.trans (by simp))
      · have := ih 0 (c :: acc) (fun h0 => absurd rfl h0) h
        simpa using this

theorem infix_of_mem_Split {sep : Str} (hsep : sep ≠ []) {e s : Str}
    (h : e ∈ Split s sep) : e <:+: s := by
  have hemp : sep.isEmpty = false := by
    cases sep with
    | nil => exact absurd rfl hsep
    | cons a t => rfl
  rw [Split, hemp] at h
  simpa using infix_of_mem_splitFrom sep e s 0 [] (fun h0 => absurd rfl h0) (by simpa using h)

end strings

namespace strings

theorem intercalate_cons_of_ne_nil (sep x : Str) {l : List Str} (hl : l ≠ []) :
    List.intercalate sep (x :: l) = x ++ sep ++ List.intercalate sep l := by
  cases l with
  | nil => exact absurd rfl hl
  | cons y l => simp [List.intercalate]

theorem splitFrom_ne_nil (sep : Str) : ∀ (s : Str) (k : Nat) (acc : Str),
    splitFrom sep s k acc ≠ [] := by
  intro s
  induction s with
  | nil => intro k acc; simp [splitFrom]
  | cons c t ih =>
    intro k acc
    cases k with
    | succ k => rw [splitFrom]; exact ih k acc
    | zero =>
      rw [splitFrom]
      split_ifs
      · exact List.cons_ne_nil _ _
      · exact ih 0 (c :: acc)

theorem splitFrom_singleton_cons (c x : Char) (t acc : Str) :
    splitFrom [c] (x :: t) 0 acc =
      if c = x then acc.reverse :: splitFrom [c] t 0 [] else splitFrom [c] t 0 (x :: acc) := by
  simp [splitFrom, List.isPrefixOf]

/-- Joining the fields of a split at `c` with `c` gives the text back. -/
theorem intercalate_splitFrom_singleton (c : Char) : ∀ (s acc : Str),
    List.intercalate [c] (splitFrom [c] s 0 acc) = acc.reverse ++ s := by
  intro s
  induction s with
  | nil => intro acc; simp [splitFrom, List.intercalate]
  | cons x t ih =>
    intro acc
    rw [splitFrom_singleton_cons]
    split_ifs with h
    · rw [intercalate_cons_of_ne_nil _ _ (splitFrom_ne_nil _ _ _ _), ih, h]
      simp
    · rw [ih]
      simp

/-- No field of a split at `c` holds a `c`. -/
theorem not_mem_of_mem_splitFrom_singleton (c : Char) : ∀ (s acc : Str), c ∉ acc →
    ∀ e ∈ splitFrom [c] s 0 acc, c ∉ e := by
  intro s
  induction s with
  | nil =>
    intro acc hacc e he
    simp only [splitFrom, List.mem_singleton] at he
    subst he
    simpa using hacc
  | cons x t ih =>
    intro acc hacc e he
    rw [splitFrom_singleton_cons] at he
    split_ifs at he with h
    · rw [List.mem_cons] at he
      rcases he with rfl | he
      · simpa using hacc
      · exact ih [] (List.not_mem_nil c) e he
    · refine ih (x :: acc) ?_ e he
      rw [List.mem_cons, not_or]
      exact ⟨h, hacc⟩

theorem intercalate_Split_singleton (c : Char) (s : Str) :
    List.intercalate [c] (Split s [c]) = s := by
  simpa [Split] using intercalate_splitFrom_singleton c s []

theorem not_mem_of_mem_Split_singleton (c : Char) (s : Str) : ∀ e ∈ Split s [c], c ∉ e := by
  intro e he
  refine not_mem_of_mem_splitFrom_singleton c s [] (List.not_mem_nil c) e ?_
  simpa [Split] using he

/-- What `replaceFrom` does, said without it: the text is cut into pieces at
occurrences of `old`, no piece holds an `old`, and the result is the pieces
joined with `new`. -/
theorem replaceFrom_pieces {old : Str} (new : Str) (hold : old ≠ []) (n : Nat) :
    ∀ s : Str, s.length ≤ n →
      ∃ pieces : List Str, pieces ≠ [] ∧ s = List.intercalate old pieces ∧
        (∀ p ∈ pieces, ¬ old <:+: p) ∧
        replaceFrom old new s 0 = List.intercalate new pieces := by
  induction n with
  | zero =>
    intro s hs
    have : s = [] := List.length_eq_zero.1 (Nat.le_zero.1 hs)
    subst this
    refine ⟨[[]], by simp, by simp [List.intercalate], ?_, by simp [replaceFrom, List.intercalate]⟩
    intro p hp
    rw [List.mem_singleton] at hp
    subst hp
    exact fun h => hold (List.infix_nil.1 h)
  | succ n ih =>
    intro s hs
    cases s with
    | nil =>
      refine ⟨[[]], by simp, by simp [List.intercalate], ?_,
        by simp [replaceFrom, List.intercalate]⟩
      intro p hp
      rw [List.mem_singleton] at hp
      subst hp
      exact fun h => hold (List.infix_nil.1 h)
    | cons c t =>
      by_cases hp : old <+: c :: t
      · have hlen : ((c :: t).drop old.length).length ≤ n := by
          have := List.length_pos.2 hold
          simp only [List.length_drop, List.length_cons] at hs ⊢
          omega
        obtain ⟨pieces, hne, hs', hfree, hrep⟩ := ih _ hlen
        refine ⟨[] :: pieces, List.cons_ne_nil _ _, ?_, ?_, ?_⟩
        · rw [intercalate_cons_of_ne_nil _ _ hne, ← hs']
          obtain ⟨r, hr⟩ := hp
          rw [← hr]
          simp
        · intro p hp'
          rw [List.mem_cons] at hp'
          rcases hp' with rfl | hp'
          · exact fun h => hold (List.infix_nil.1 h)
          · exact hfree p hp'
        · rw [replaceFrom_of_isPrefix hold hp, intercalate_cons_of_ne_nil _ _ hne, hrep]
          simp
      · have ht : t.length ≤ n := by
          simp only [List.length_cons] at hs
          omega
        obtain ⟨pieces, hne, hs', hfree, hrep⟩ := ih t ht
        obtain ⟨p0, rest, rfl⟩ := List.exists_cons_of_ne_nil hne
        have hp0 : p0 <+: t := by
          cases rest with
          | nil =>
            rw [hs']
            simp [List.intercalate]
          | cons q rest =>
            rw [hs', intercalate_cons_of_ne_nil _ _ (List.cons_ne_nil _ _), List.append_assoc]
            exact List.prefix_append _ _
        refine ⟨(c :: p0) :: rest, List.cons_ne_nil _ _, ?_, ?_, ?_⟩
        · cases rest with
          | nil =>
            rw [hs']
            simp [List.intercalate]
          | cons q rest =>
            rw [hs', intercalate_cons_of_ne_nil _ _ (List.cons_ne_nil _ _),
              intercalate_cons_of_ne_nil _ _ (List.cons_ne_nil _ _)]
            simp
        · intro p hp'
          rw [List.mem_cons] at hp'
          rcases hp' with rfl | hp'
          · rw [List.infix_cons_iff]
            rintro (h | h)
            · exact hp (h.trans (List.cons_prefix_cons.2 ⟨rfl, hp0⟩))
            · exact hfree p0 (List.mem_cons_self _ _) h
          · exact hfree p (List.mem_cons_of_mem _ hp')
        · rw [replaceFrom_of_not_isPrefix hp, hrep]
          cases rest with
          | nil => simp [List.intercalate]
          | cons q rest =>
            rw [intercalate_cons_of_ne_nil _ _ (List.cons_ne_nil _ _),
              intercalate_cons_of_ne_nil _ _ (List.cons_ne_nil _ _)]
            simp

theorem ReplaceAll_pieces {old : Str} (new : Str) (hold : old ≠ []) (hne : old ≠ new)
    (s : Str) :
    ∃ pieces : List Str, s = List.intercalate old pieces ∧
      (∀ p ∈ pieces, ¬ old <:+: p) ∧
      ReplaceAll s old new = List.intercalate new pieces := by
  have hemp : old.isEmpty = false := by
    cases old with
    | nil => exact absurd rfl hold
    | cons a t => rfl
  obtain ⟨pieces, -, h1, h2, h3⟩ := replaceFrom_pieces new hold s.length s (Nat.le_refl _)
  refine ⟨pieces, h1, h2, ?_⟩
  rw [ReplaceAll, if_neg hne, hemp]
  simpa using h3

end strings

namespace strings

theorem Index_singleton_of_not_mem {s : Str} {c : Char} (h : c ∉ s) : Index s [c] = -1 := by
  induction s with
  | nil => rfl
  | cons x t ih =>
    rw [List.mem_cons, not_or] at h
    have hx : ¬ c = x := h.1
    simp [Index, List.isPrefixOf, hx, ih h.2]

theorem Index_singleton_append_cons {s : Str} {c : Char} (h : c ∉ s) (r : Str) :
    Index (s ++ c :: r) [c] = (s.length : Int) := by
  induction s with
  | nil => simp [Index, List.isPrefixOf]
  | cons x t ih =>
    rw [List.mem_cons, not_or] at h
    have hx : ¬ c = x := h.1
    have hne : ¬ ((t.length : Int) = -1) := by omega
    simp [Index, List.isPrefixOf, hx, ih h.2, hne]

theorem LastIndex_singleton_of_not_mem {s : Str} {c : Char} (h : c ∉ s) :
    LastIndex s [c] = -1 := by
  induction s with
  | nil => rfl
  | cons x t ih =>
    rw [List.mem_cons, not_or] at h
    have hx : ¬ c = x := h.1
    simp [LastIndex, List.isPrefixOf, hx, ih h.2]

theorem Cut_singleton_of_not_mem {s : Str} {c : Char} (h : c ∉ s) :
    Cut s [c] = (s, [], false) := by
  simp [Cut, Index_singleton_of_not_mem h]

theorem HasSuffix_singleton_of_not_mem {s : Str} {c : Char} (h : c ∉ s) :
    HasSuffix s [c] = false := by
  unfold HasSuffix
  by_contra hc
  rw [Bool.not_eq_false, List.isPrefixOf_iff_prefix] at hc
  obtain ⟨t, ht⟩ := hc
  apply h
  have : c ∈ s.reverse := by
    rw [← ht]
    simp
  simpa using this

end strings

/-! ## `url.Parse` on URIs written with unreserved characters -/

namespace url

open encoding

theorem isLetter_bounds {c : Char} (h : isLetter c = true) :
    65 ≤ c.toNat ∧ c.toNat ≤ 122 := by
  simp only [isLetter, Bool.or_eq_true, Bool.and_eq_true, decide_eq_true_eq] at h
  rcases h with ⟨h1, h2⟩ | ⟨h1, h2⟩
  · have a : 97 ≤ c.toNat := h1
    have b : c.toNat ≤ 122 := h2
    omega
  · have a : 65 ≤ c.toNat := h1
    have b : c.toNat ≤ 90 := h2
    omega

theorem isDigit_bounds {c : Char} (h : isDigit c = true) : 48 ≤ c.toNat ∧ c.toNat ≤ 57 := by
  simp only [isDigit, Bool.and_eq_true, decide_eq_true_eq] at h
  exact ⟨h.1, h.2⟩

/-- The characters of a URI `scheme://host/path` written with scheme
characters, unreserved characters, `:` and `/`. -/
theorem plain_bounds {c : Char}
    (h : (isLetter c || isDigit c || c = '+' || c = '-' || c = '.' || c = '_' || c = '~' ||
      c = ':' || c = '/') = true) : 0x20 ≤ c.toNat ∧ c.toNat ≠ 0x7f := by
  simp only [Bool.or_eq_true, decide_eq_true_eq] at h
  rcases h with (((((((h | h) | h) | h) | h) | h) | h) | h) | h
  · have := isLetter_bounds h
    omega
  · have := isDigit_bounds h
    omega
  all_goals subst h; decide

theorem ne_of_pred {p : Char → Bool} {c x : Char} (hc : p c = true) (hx : p x = false) :
    c ≠ x := by
  rintro rfl
  rw [hc] at hx
  cases hx

theorem unescapeCheck_cons {mode : encoding} {c : Char} (hc : c ≠ '%') (t : Str) :
    unescapeCheck mode (c :: t) =
      if c = '+' then unescapeCheck mode t
      else if ((mode = encodeHost || mode = encodeZone) && c.toNat < 0x80 &&
          shouldEscape c encodeHost) = true then some (.invalidHostError [c])
      else unescapeCheck mode t := by
  match t with
  | [] => simp [unescapeCheck, hc]
  | [a] => simp [unescapeCheck, hc]
  | a :: b :: t => simp [unescapeCheck, hc]

theorem unescapeDecode_cons {mode : encoding} {c : Char} (hc : c ≠ '%') (hp : c ≠ '+')
    (t : Str) : unescapeDecode mode (c :: t) [] = c :: unescapeDecode mode t [] := by
  match t with
  | [] => simp [unescapeDecode, decodeUTF8, hp]
  | [a] => simp [unescapeDecode, decodeUTF8, hp]
  | a :: b :: t => simp [unescapeDecode, decodeUTF8, hc, hp]

theorem shouldEscape_host_of_unreserved {c : Char} (h : unreserved c = true) :
    shouldEscape c encodeHost = false := by
  simp only [unreserved, Bool.or_eq_true, decide_eq_true_eq] at h
  rcases h with ((((h | h) | h) | h) | h) | h
  · simp [shouldEscape, h]
  · simp [shouldEscape, h]
  all_goals subst h; decide

/-- Text written with unreserved characters and `/` is its own unescaped form,
as a path and (without `/`) as a host. -/
theorem unescape_plain (mode : encoding) (s : Str)
    (hs : ∀ c ∈ s, (unreserved c || c = '/') = true)
    (hm : mode = encodePath ∨ (mode = encodeHost ∧ ∀ c ∈ s, unreserved c = true)) :
    unescape s mode = .ok s := by
  have hc : unescapeCheck mode s = none ∧ unescapeDecode mode s [] = s := by
    induction s with
    | nil => simp [unescapeCheck, unescapeDecode, decodeUTF8]
    | cons c t ih =>
      have hct := hs c (List.mem_cons_self c t)
      have h1 : c ≠ '%' := ne_of_pred (p := fun x => unreserved x || x = '/') hct (by decide)
      have h2 : c ≠ '+' := ne_of_pred (p := fun x => unreserved x || x = '/') hct (by decide)
      have iht := ih (fun x hx => hs x (List.mem_cons_of_mem c hx))
        (hm.imp id fun h => ⟨h.1, fun x hx => h.2 x (List.mem_cons_of_mem c hx)⟩)
      rw [unescapeCheck_cons h1, unescapeDecode_cons h1 h2, iht.1, iht.2, if_neg h2]
      refine ⟨?_, rfl⟩
      rcases hm with hm | ⟨hm, hu⟩
      · subst hm
        simp
      · subst hm
        simp [shouldEscape_host_of_unreserved (hu c (List.mem_cons_self c t))]
  simp [unescape, hc.1, hc.2]

theorem getSchemeFrom_tail (rawURL : Str) (r : Str) :
    ∀ (t : Str) (i : Nat), 0 < i →
      (∀ x ∈ t, (isLetter x || isDigit x || x = '+' || x = '-' || x = '.') = true) →
      getSchemeFrom rawURL (t ++ ':' :: r) i =
        .ok (rawURL.take (i + t.length), rawURL.drop (i + t.length + 1)) := by
  intro t
  induction t with
  | nil =>
    intro i hi _
    have h0 : i ≠ 0 := by omega
    simp [getSchemeFrom, isLetter, isDigit, h0]
  | cons x t ih =>
    intro i hi ht
    have hx := ht x (List.mem_cons_self x t)
    have h0 : i ≠ 0 := by omega
    have := ih (i + 1) (by omega) (fun y hy => ht y (List.mem_cons_of_mem x hy))
    simp only [Bool.or_eq_true, decide_eq_true_eq] at hx
    have hlen : i + (x :: t).length = i + 1 + t.length := by
      simp only [List.length_cons]
      omega
    rw [hlen, List.cons_append, getSchemeFrom]
    by_cases hl : isLetter x = true
    · rw [if_pos hl, this]
    · rw [if_neg hl]
      have hd : (isDigit x || decide (x = '+') || decide (x = '-') || decide (x = '.')) = true := by
        simp only [Bool.or_eq_true, decide_eq_true_eq]
        tauto
      rw [if_pos hd, if_neg h0, this]

theorem getScheme_schemeName {scheme : Str} (hs : schemeName scheme = true) (r : Str) :
    getScheme (scheme ++ ':' :: r) = .ok (scheme, r) := by
  cases scheme with
  | nil => cases hs
  | cons c t =>
    simp only [schemeName, Bool.and_eq_true, List.all_eq_true] at hs
    unfold getScheme
    rw [List.cons_append, getSchemeFrom, if_pos hs.1,
      getSchemeFrom_tail _ r t 1 (by omega) hs.2]
    have h1 : 1 + t.length = (c :: t).length := by
      simp only [List.length_cons]
      omega
    have h2 : (c :: t).length + 1 = (c :: t ++ [':']).length := by
      simp only [List.length_cons, List.length_append, List.length_nil]
    rw [h1]
    congr 2
    · rw [← List.cons_append, List.take_left]
    · have : c :: (t ++ ':' :: r) = (c :: t ++ [':']) ++ r := by simp
      rw [this, h2, List.drop_left]

end url

namespace url

open encoding

theorem parseAuthority_unreserved (host : Str) (hh : ∀ c ∈ host, unreserved c = true) :
    parseAuthority host = .ok (none, host) := by
  have hat : '@' ∉ host := fun h => absurd (hh _ h) (by decide)
  have hcolon : ':' ∉ host := fun h => absurd (hh _ h) (by decide)
  have hbr : strings.HasPrefix host ['['] = false := by
    cases host with
    | nil => rfl
    | cons c t =>
      have : c ≠ '[' := ne_of_pred (hh c (List.mem_cons_self c t)) (by decide)
      simp [strings.HasPrefix, List.isPrefixOf, this.symm]
  have hhost : parseHost host = .ok host := by
    unfold parseHost
    rw [hbr]
    simp only [Bool.false_eq_true, if_false, strings.LastIndex_singleton_of_not_mem hcolon,
      ne_eq, not_true_eq_false, false_and]
    exact unescape_plain encodeHost host (fun c hc => by simp [hh c hc]) (Or.inr ⟨rfl, hh⟩)
  unfold parseAuthority
  simp [strings.LastIndex_singleton_of_not_mem hat, hhost]

theorem plainPath_chars {path : Str} (hp : plainPath path = true) :
    ∀ c ∈ path, (unreserved c || c = '/') = true := by
  cases path with
  | nil => intro c hc; cases hc
  | cons x t =>
    simp only [plainPath, Bool.and_eq_true, decide_eq_true_eq, List.all_eq_true] at hp
    intro c hc
    rw [List.mem_cons] at hc
    rcases hc with rfl | hc
    · simp [hp.1]
    · exact hp.2 c hc

/-- `url.Parse` on `scheme://host/path` written with scheme characters and
unreserved characters: the three components come back as written, the scheme
in lower case. -/
theorem Parse_plain (scheme host path : Str) (hs : schemeName scheme = true)
    (hh : ∀ c ∈ host, unreserved c = true) (hp : plainPath path = true) :
    Parse (scheme ++ "://".toList ++ host ++ path) =
      .ok { Scheme := strings.ToLower scheme, Host := host, Path := path } := by
  have hraw : scheme ++ "://".toList ++ host ++ path =
      scheme ++ ':' :: '/' :: '/' :: (host ++ path) := by
    simp
  have hpc := plainPath_chars hp
  have hsc : ∀ c ∈ scheme,
      (isLetter c || isDigit c || c = '+' || c = '-' || c = '.') = true := by
    cases scheme with
    | nil => cases hs
    | cons x t =>
      simp only [schemeName, Bool.and_eq_true, List.all_eq_true] at hs
      intro c hc
      rw [List.mem_cons] at hc
      rcases hc with rfl | hc
      · simp [hs.1]
      · exact hs.2 c hc
  have hrest : ∀ c ∈ '/' :: '/' :: (host ++ path), (unreserved c || c = '/') = true := by
    intro c hc
    simp only [List.mem_cons, List.mem_append] at hc
    rcases hc with rfl | rfl | hc | hc
    · decide
    · decide
    · simp [hh c hc]
    · exact hpc c hc
  have hall : ∀ c ∈ scheme ++ ':' :: '/' :: '/' :: (host ++ path),
      (isLetter c || isDigit c || c = '+' || c = '-' || c = '.' || c = '_' || c = '~' ||
        c = ':' || c = '/') = true := by
    intro c hc
    rw [List.mem_append, List.mem_cons] at hc
    rcases hc with hc | rfl | hc
    · have := hsc c hc
      simp only [Bool.or_eq_true, decide_eq_true_eq] at this ⊢
      tauto
    · decide
    · have := hrest c hc
      simp only [unreserved, Bool.or_eq_true, decide_eq_true_eq] at this ⊢
      tauto
  have hfrag : '#' ∉ scheme ++ ':' :: '/' :: '/' :: (host ++ path) :=
    fun h => absurd (hall _ h) (by decide)
  have hquery : '?' ∉ '/' :: '/' :: (host ++ path) :=
    fun h => absurd (hrest _ h) (by decide)
  have hctl : stringContainsCTLByte (scheme ++ ':' :: '/' :: '/' :: (host ++ path)) = false := by
    rw [stringContainsCTLByte, List.any_eq_false]
    intro c hc
    have := plain_bounds (hall c hc)
    simp only [Bool.or_eq_true, decide_eq_true_eq, not_or]
    omega
  have hne : scheme ++ ':' :: '/' :: '/' :: (host ++ path) ≠ [] := by
    cases scheme <;> simp
  have hstar : scheme ++ ':' :: '/' :: '/' :: (host ++ path) ≠ ['*'] := by
    cases scheme with
    | nil => cases hs
    | cons x t => cases t <;> simp
  have hlow : strings.ToLower scheme ≠ [] := by
    cases scheme with
    | nil => cases hs
    | cons x t => simp [strings.ToLower]
  have hslash : '/' ∉ host := fun h => absurd (hh _ h) (by decide)
  have hcut : (if 0 ≤ strings.Index (host ++ path) ['/'] then
        ((host ++ path).take (strings.Index (host ++ path) ['/']).toNat,
          (host ++ path).drop (strings.Index (host ++ path) ['/']).toNat)
      else (host ++ path, [])) = (host, path) := by
    cases path with
    | nil =>
      simp [strings.Index_singleton_of_not_mem hslash]
    | cons x t =>
      simp only [plainPath, Bool.and_eq_true, decide_eq_true_eq] at hp
      rw [hp.1, strings.Index_singleton_append_cons hslash]
      simp
  rw [hraw]
  unfold Parse
  rw [strings.Cut_singleton_of_not_mem hfrag]
  simp only [if_true]
  unfold parse
  have hpre1 : strings.HasPrefix ('/' :: '/' :: (host ++ path)) ['/'] = true := by
    simp [strings.HasPrefix, List.isPrefixOf]
  have hpre2 : strings.HasPrefix ('/' :: '/' :: (host ++ path)) ['/', '/'] = true := by
    simp [strings.HasPrefix, List.isPrefixOf]
  rw [hctl, getScheme_schemeName hs]
  simp only [Bool.false_eq_true, if_false, hne, hstar, false_and, and_false,
    strings.HasSuffix_singleton_of_not_mem hquery, strings.Cut_singleton_of_not_mem hquery,
    hpre1, hpre2, Bool.not_true, ne_eq, hlow, not_false_eq_true, true_or, and_self, if_true,
    List.drop_succ_cons, List.drop_zero, hcut, parseAuthority_unreserved host hh,
    unescape_plain encodePath path hpc (Or.inl rfl)]

end url

/-! ## `ParseServerMethod` -/

namespace driver

/-- The bare dialect on a URI with a `/`: it is cut at the first `/`. -/
theorem ParseServerMethod_bare_cut (urlParse : Str → Except url.Error url.URL) (a r : Str)
    (hbare : strings.Contains (a ++ '/' :: r) "//".toList = false) (ha : '/' ∉ a) :
    ParseServerMethod urlParse (a ++ '/' :: r) = .ret a ('/' :: r) none := by
  have hne : ¬ ((a.length : Int) = -1) := by omega
  unfold ParseServerMethod
  rw [hbare]
  simp [strings.IndexByte_append_cons ha, hne, sliceTo_length_append, sliceFrom_length_append]

/-- The full dialect on a parsed URL whose path has a `/` after its first
character: the path is cut at the first such `/`. -/
theorem ParseServerMethod_full_cut (urlParse : Str → Except url.Error url.URL) (uri : Str)
    (u : url.URL) (c : Char) (s r : Str)
    (hfull : strings.Contains uri "//".toList = true) (hparse : urlParse uri = .ok u)
    (hpath : u.Path = c :: s ++ '/' :: r) (hs : '/' ∉ s) :
    ParseServerMethod urlParse uri =
      .ret (u.Scheme ++ "://".toList ++ u.Host ++ c :: s) ('/' :: r) none := by
  have h1 : sliceFrom (c :: s ++ '/' :: r) 1 = some (s ++ '/' :: r) := by
    simp [sliceFrom]
    omega
  have h2 : sliceTo (c :: s ++ '/' :: r) ((s.length : Int) + 1) = some (c :: s) := by
    have := sliceTo_length_append (c :: s) ('/' :: r)
    simpa using this
  have h3 : sliceFrom (c :: s ++ '/' :: r) ((s.length : Int) + 1) = some ('/' :: r) := by
    have := sliceFrom_length_append (c :: s) ('/' :: r)
    simpa using this
  unfold ParseServerMethod
  rw [hfull]
  simp only [hparse, hpath, h1, strings.IndexByte_append_cons hs, h2, h3]
  simp

/-- C1 as stated, on the text of the URI, fails at three URIs of the form
`scheme://host/s/m`: `url.Parse` lower-cases the scheme, so the server of
`DISCOVERY://Host/Svc/M` is `discovery://Host/Svc`; it decodes escapes, so
`discovery://host/svc%2Fx/m` gives the server `discovery://host/svc` and the
method `/x/m`; and it rejects `discovery://host:port/svc/Method`, for which the
server and the method returned are empty. -/
theorem ParseServerMethod_full_form_not_literal :
    (ParseServerMethod url.Parse "DISCOVERY://Host/Svc/M".toList =
        .ret "discovery://Host/Svc".toList "/M".toList none ∧
      ParseServerMethod url.Parse "DISCOVERY://Host/Svc/M".toList ≠
        .ret "DISCOVERY://Host/Svc".toList "/M".toList none) ∧
    (ParseServerMethod url.Parse "discovery://host/svc%2Fx/m".toList =
        .ret "discovery://host/svc".toList "/x/m".toList none ∧
      ParseServerMethod url.Parse "discovery://host/svc%2Fx/m".toList ≠
        .ret "discovery://host/svc%2Fx".toList "/m".toList none) ∧
    (ParseServerMethod url.Parse "discovery://host:port/svc/Method".toList =
        .ret [] [] none ∧
      ParseServerMethod url.Parse "discovery://host:port/svc/Method".toList ≠
        .ret "discovery://host:port/svc".toList "/Method".toList none) := by
  decide

/-- C1 as the code has it: for every URI of the full form (it contains `//`)
that URL parsing accepts, with the parsed scheme, the parsed host, which may be
empty, and a parsed path `/s/m1/m2/...` whose first segment `s` holds no `/`,
`ParseServerMethod` returns no error, the server `scheme://host/s` made of the
parsed components, and the method `/m1/m2/...`. -/
theorem ParseServerMethod_full_form (urlParse : Str → Except url.Error url.URL) (uri : Str)
    (u : url.URL) (s rest : Str)
    (hfull : strings.Contains uri "//".toList = true) (hparse : urlParse uri = .ok u)
    (hpath : u.Path = '/' :: s ++ '/' :: rest) (hs : '/' ∉ s) :
    ParseServerMethod urlParse uri =
      .ret (u.Scheme ++ "://".toList ++ u.Host ++ '/' :: s) ('/' :: rest) none :=
  ParseServerMethod_full_cut urlParse uri u '/' s rest hfull hparse hpath hs

/-- C1 at `discovery:///svc.order/Create`, parsed by `url.Parse`. -/
theorem ParseServerMethod_full_form_witness :
    strings.Contains "discovery:///svc.order/Create".toList "//".toList = true ∧
    url.Parse "discovery:///svc.order/Create".toList =
      .ok { Scheme := "discovery".toList, Host := [], Path := "/svc.order/Create".toList } ∧
    ParseServerMethod url.Parse "discovery:///svc.order/Create".toList =
      .ret "discovery:///svc.order".toList "/Create".toList none :=
  ⟨by decide, by decide,
    ParseServerMethod_full_form url.Parse "discovery:///svc.order/Create".toList
      { Scheme := "discovery".toList, Host := [], Path := "/svc.order/Create".toList }
      "svc.order".toList "Create".toList (by decide) (by decide) (by decide) (by decide)⟩

/-- The full dialect on a parsed URL whose path has no `/` after its first
character: the server is `scheme://host` and the method is the whole path. -/
theorem ParseServerMethod_full_single (urlParse : Str → Except url.Error url.URL) (uri : Str)
    (u : url.URL) (c : Char) (s : Str)
    (hfull : strings.Contains uri "//".toList = true) (hparse : urlParse uri = .ok u)
    (hpath : u.Path = c :: s) (hs : '/' ∉ s) :
    ParseServerMethod urlParse uri =
      .ret (u.Scheme ++ "://".toList ++ u.Host) (c :: s) none := by
  have h1 : sliceFrom (c :: s) 1 = some s := by
    simp [sliceFrom]
  unfold ParseServerMethod
  rw [hfull]
  simp only [hparse, hpath, h1, strings.IndexByte_of_not_mem hs]
  have h0 : (0 : Int) ≤ (s.length : Int) + 1 := by omega
  simp [sliceTo, sliceFrom, h0]

/-- C2 as the code has it: for every URI of the full form whose parsed path is
`/` followed by a single segment without `/`, `ParseServerMethod` returns no
error, the server `scheme://host` and, as the method, the entire path. -/
theorem ParseServerMethod_one_segment (urlParse : Str → Except url.Error url.URL) (uri : Str)
    (u : url.URL) (s : Str)
    (hfull : strings.Contains uri "//".toList = true) (hparse : urlParse uri = .ok u)
    (hpath : u.Path = '/' :: s) (hs : '/' ∉ s) :
    ParseServerMethod urlParse uri =
      .ret (u.Scheme ++ "://".toList ++ u.Host) u.Path none := by
  rw [ParseServerMethod_full_single urlParse uri u '/' s hfull hparse hpath hs, hpath]

/-- C2 (as amended) at `discovery://host/svc`, parsed by `url.Parse`. -/
theorem ParseServerMethod_one_segment_witness :
    strings.Contains "discovery://host/svc".toList "//".toList = true ∧
    url.Parse "discovery://host/svc".toList =
      .ok { Scheme := "discovery".toList, Host := "host".toList, Path := "/svc".toList } ∧
    ParseServerMethod url.Parse "discovery://host/svc".toList =
      .ret "discovery://host".toList "/svc".toList none :=
  ⟨by decide, by decide,
    ParseServerMethod_one_segment url.Parse "discovery://host/svc".toList
      { Scheme := "discovery".toList, Host := "host".toList, Path := "/svc".toList }
      "svc".toList (by decide) (by decide) (by decide) (by decide)⟩

/-- C2 as stated fails at `discovery://host/svc`: the URI contains `//`, URL
parsing accepts it with the one-segment path `/svc`, and the method returned is
`/svc`, not the empty string; the server is `discovery://host`, not
`discovery://host/svc`. -/
theorem ParseServerMethod_one_segment_method_not_empty :
    strings.Contains "discovery://host/svc".toList "//".toList = true ∧
    url.Parse "discovery://host/svc".toList =
      .ok { Scheme := "discovery".toList, Host := "host".toList, Path := "/svc".toList } ∧
    ParseServerMethod url.Parse "discovery://host/svc".toList =
      .ret "discovery://host".toList "/svc".toList none ∧
    ParseServerMethod url.Parse "discovery://host/svc".toList ≠
      .ret ("discovery".toList ++ "://".toList ++ "host".toList ++ "/svc".toList) [] none := by
  decide

/-- C3 fails at `discovery://host`: the URI is not empty, URL parsing accepts
it with an empty path, and `u.Path[1:]` is out of range, so the call panics. -/
theorem ParseServerMethod_panics_on_empty_path :
    "discovery://host".toList ≠ [] ∧
    url.Parse "discovery://host".toList =
      .ok { Scheme := "discovery".toList, Host := "host".toList, Path := [] } ∧
    sliceFrom ([] : Str) 1 = none ∧
    ParseServerMethod url.Parse "discovery://host".toList = .panic := by
  decide

/-- `ParseServerMethod` panics exactly on the URIs of the full form that URL
parsing accepts with an empty path. -/
theorem ParseServerMethod_panic_iff (urlParse : Str → Except url.Error url.URL) (uri : Str) :
    ParseServerMethod urlParse uri = .panic ↔
      strings.Contains uri "//".toList = true ∧
        ∃ u, urlParse uri = .ok u ∧ u.Path = [] := by
  cases hc : strings.Contains uri "//".toList with
  | false =>
    simp only [Bool.false_eq_true, false_and, iff_false]
    by_cases hm : '/' ∈ uri
    · obtain ⟨a, r, rfl, ha⟩ := List.eq_append_cons_of_mem hm
      rw [ParseServerMethod_bare_cut urlParse a r hc ha]
      simp
    · unfold ParseServerMethod
      rw [hc]
      simp [strings.IndexByte_of_not_mem hm]
  | true =>
    simp only [true_and]
    cases hp : urlParse uri with
    | error e =>
      unfold ParseServerMethod
      rw [hc]
      simp [hp]
    | ok u =>
      cases hpath : u.Path with
      | nil =>
        unfold ParseServerMethod
        rw [hc]
        simp [hp, hpath, sliceFrom]
      | cons c t =>
        have hr : ¬ ∃ v, (Except.ok u : Except url.Error url.URL) = Except.ok v ∧
            v.Path = [] := by
          rintro ⟨v, hv, hv2⟩
          cases hv
          rw [hpath] at hv2
          cases hv2
        simp only [hr, iff_false]
        by_cases hm : '/' ∈ t
        · obtain ⟨a, r, rfl, ha⟩ := List.eq_append_cons_of_mem hm
          rw [ParseServerMethod_full_cut urlParse uri u c a r hc hp hpath ha]
          simp
        · rw [ParseServerMethod_full_single urlParse uri u c t hc hp hpath hm]
          simp

/-- C4: on a URI without `//`, `ParseServerMethod` fails with the message
`bad url: '<uri>'. no '/' found` and empty results when the URI has no `/`, and
otherwise succeeds with the text before the first `/` as server and the text
from that `/` on as method: the server holds no `/`, the method starts with
`/`, and server followed by method is the URI. -/
theorem ParseServerMethod_bare_form (urlParse : Str → Except url.Error url.URL) (uri : Str)
    (hbare : strings.Contains uri "//".toList = false) :
    ('/' ∉ uri →
      ParseServerMethod urlParse uri =
        .ret [] [] (some (.errorf ("bad url: '".toList ++ uri ++ "'. no '/' found".toList)))) ∧
    ('/' ∈ uri →
      ∃ server method, ParseServerMethod urlParse uri = .ret server method none ∧
        server = uri.takeWhile (fun c => c ≠ '/') ∧
        method = uri.dropWhile (fun c => c ≠ '/') ∧
        '/' ∉ server ∧ method.head? = some '/' ∧ server ++ method = uri) := by
  constructor
  · intro hm
    unfold ParseServerMethod
    rw [hbare]
    simp [strings.IndexByte_of_not_mem hm]
  · intro hm
    obtain ⟨a, r, rfl, ha⟩ := List.eq_append_cons_of_mem hm
    refine ⟨a, '/' :: r, ParseServerMethod_bare_cut urlParse a r hbare ha, ?_, ?_, ha, rfl, rfl⟩
    · rw [List.takeWhile_append_of_pos]
      · simp
      · intro c hc
        have : c ≠ '/' := fun e => ha (e ▸ hc)
        simpa using this
    · rw [List.dropWhile_append_of_pos]
      · simp
      · intro c hc
        have : c ≠ '/' := fun e => ha (e ▸ hc)
        simpa using this

/-- C4 at `127.0.0.1:8080/svc.Method` and at `no-slash`. -/
theorem ParseServerMethod_bare_form_witness :
    strings.Contains "127.0.0.1:8080/svc.Method".toList "//".toList = false ∧
    ParseServerMethod url.Parse "127.0.0.1:8080/svc.Method".toList =
      .ret "127.0.0.1:8080".toList "/svc.Method".toList none ∧
    strings.Contains "no-slash".toList "//".toList = false ∧
    ParseServerMethod url.Parse "no-slash".toList =
      .ret [] [] (some (.errorf "bad url: 'no-slash'. no '/' found".toList)) := by
  refine ⟨by decide, ?_, by decide, ?_⟩
  · obtain ⟨server, method, h, hs, hm, -⟩ :=
      (ParseServerMethod_bare_form url.Parse "127.0.0.1:8080/svc.Method".toList
        (by decide)).2 (by decide)
    rw [h, hs, hm]
    decide
  · exact (ParseServerMethod_bare_form url.Parse "no-slash".toList (by decide)).1 (by decide)

/-- C5: on a URI that contains `//` and that URL parsing rejects,
`ParseServerMethod` returns an empty server, an empty method and a nil error:
the result has the shape of a successful parse. -/
theorem ParseServerMethod_parse_failure (urlParse : Str → Except url.Error url.URL) (uri : Str)
    (e : url.Error)
    (hfull : strings.Contains uri "//".toList = true) (hparse : urlParse uri = .error e) :
    ParseServerMethod urlParse uri = .ret [] [] none := by
  unfold ParseServerMethod
  rw [hfull]
  simp [hparse]

/-- C5 at `discovery://host:port/svc/Method`, which `url.Parse` rejects for
its port. -/
theorem ParseServerMethod_parse_failure_witness :
    strings.Contains "discovery://host:port/svc/Method".toList "//".toList = true ∧
    url.Parse "discovery://host:port/svc/Method".toList = .error (.invalidPort ":port".toList) ∧
    ParseServerMethod url.Parse "discovery://host:port/svc/Method".toList = .ret [] [] none :=
  ⟨by decide, by decide,
    ParseServerMethod_parse_failure url.Parse "discovery://host:port/svc/Method".toList
      (.invalidPort ":port".toList) (by decide) (by decide)⟩

end driver

/-! ## `ParseServerMethod` over `url.Parse` on URIs written with unreserved characters -/

namespace driver

theorem Contains_slashes (scheme r : Str) :
    strings.Contains (scheme ++ "://".toList ++ r) "//".toList = true := by
  rw [strings.Contains_iff_isInfix]
  exact ⟨scheme ++ [':'], r, by simp⟩

/-- The full dialect, literally: on `scheme://host/s/m1/m2/...` written with a
scheme name and unreserved characters, `ParseServerMethod` over `url.Parse`
returns no error, the server `scheme://host/s` (its scheme in lower case) and
the method `/m1/m2/...`. -/
theorem ParseServerMethod_plain_full_form (scheme host s rest : Str)
    (hscheme : url.schemeName scheme = true) (hhost : ∀ c ∈ host, url.unreserved c = true)
    (hs : ∀ c ∈ s, url.unreserved c = true)
    (hrest : ∀ c ∈ rest, (url.unreserved c || c = '/') = true) :
    ParseServerMethod url.Parse (scheme ++ "://".toList ++ host ++ ('/' :: s ++ '/' :: rest)) =
      .ret (strings.ToLower scheme ++ "://".toList ++ host ++ '/' :: s) ('/' :: rest) none := by
  have hpath : url.plainPath ('/' :: s ++ '/' :: rest) = true := by
    simp only [List.cons_append, url.plainPath, decide_True, Bool.true_and, List.all_eq_true,
      List.mem_append, List.mem_cons]
    rintro c (hc | rfl | hc)
    · simp [hs c hc]
    · decide
    · exact hrest c hc
  have hslash : '/' ∉ s := fun h => absurd (hs _ h) (by decide)
  have hfull := Contains_slashes scheme (host ++ ('/' :: s ++ '/' :: rest))
  rw [← List.append_assoc] at hfull
  exact ParseServerMethod_full_cut url.Parse _ _ '/' s rest hfull
    (url.Parse_plain scheme host _ hscheme hhost hpath) rfl hslash

/-- The full dialect with a one-segment path, literally: on `scheme://host/s`
the server is `scheme://host` (its scheme in lower case) and the method `/s`. -/
theorem ParseServerMethod_plain_one_segment (scheme host s : Str)
    (hscheme : url.schemeName scheme = true) (hhost : ∀ c ∈ host, url.unreserved c = true)
    (hs : ∀ c ∈ s, url.unreserved c = true) :
    ParseServerMethod url.Parse (scheme ++ "://".toList ++ host ++ '/' :: s) =
      .ret (strings.ToLower scheme ++ "://".toList ++ host) ('/' :: s) none := by
  have hpath : url.plainPath ('/' :: s) = true := by
    simp only [url.plainPath, decide_True, Bool.true_and, List.all_eq_true]
    intro c hc
    simp [hs c hc]
  have hslash : '/' ∉ s := fun h => absurd (hs _ h) (by decide)
  have hfull := Contains_slashes scheme (host ++ '/' :: s)
  rw [← List.append_assoc] at hfull
  exact ParseServerMethod_full_single url.Parse _ _ '/' s hfull
    (url.Parse_plain scheme host _ hscheme hhost hpath) rfl hslash

/-- The full dialect without a path, literally: on `scheme://host` the call
panics. -/
theorem ParseServerMethod_plain_no_path (scheme host : Str)
    (hscheme : url.schemeName scheme = true) (hhost : ∀ c ∈ host, url.unreserved c = true) :
    ParseServerMethod url.Parse (scheme ++ "://".toList ++ host) = .panic := by
  have hfull := Contains_slashes scheme host
  have hparse := url.Parse_plain scheme host [] hscheme hhost rfl
  rw [List.append_nil] at hparse
  exact (ParseServerMethod_panic_iff url.Parse _).2 ⟨hfull, _, hparse, rfl⟩

end driver

/-! ## Facts about the local IP probe -/

namespace net

theorem digitChar_not_mem_localhost :
    ∀ m, m < 10 → Nat.digitChar m ∉ "localhost".toList := by
  decide

theorem toDigitsCore_not_mem_localhost (fuel : Nat) :
    ∀ (n : Nat) (ds : List Char), (∀ c ∈ ds, c ∉ "localhost".toList) →
      ∀ c ∈ Nat.toDigitsCore 10 fuel n ds, c ∉ "localhost".toList := by
  induction fuel with
  | zero =>
    intro n ds hds c hc
    rw [Nat.toDigitsCore] at hc
    exact hds c hc
  | succ fuel ih =>
    intro n ds hds c hc
    have hd : ∀ c ∈ Nat.digitChar (n % 10) :: ds, c ∉ "localhost".toList := by
      intro c hc
      rw [List.mem_cons] at hc
      rcases hc with rfl | hc
      · exact digitChar_not_mem_localhost _ (Nat.mod_lt _ (by decide))
      · exact hds c hc
    rw [Nat.toDigitsCore] at hc
    split_ifs at hc
    · exact hd c hc
    · exact ih _ _ hd c hc

theorem Uitoa_not_mem_localhost (n : Nat) : ∀ c ∈ Uitoa n, c ∉ "localhost".toList :=
  toDigitsCore_not_mem_localhost _ n [] (fun _ h => absurd h (List.not_mem_nil _))

/-- The text of an IP address shares no character with `localhost`. -/
theorem String_not_mem_localhost (ip : IP) : ∀ c ∈ ip.String, c ∉ "localhost".toList := by
  intro c hc
  unfold IP.String at hc
  split at hc
  · simp only [List.mem_append, List.mem_cons, or_assoc] at hc
    rcases hc with hc | rfl | hc | rfl | hc | rfl | hc
    · exact Uitoa_not_mem_localhost _ c hc
    · decide
    · exact Uitoa_not_mem_localhost _ c hc
    · decide
    · exact Uitoa_not_mem_localhost _ c hc
    · decide
    · exact Uitoa_not_mem_localhost _ c hc
  · rw [List.mem_singleton] at hc
    subst hc
    decide

end net

/-! ## `RegisterService` -/

namespace driver

theorem firstIPv4_not_mem_localhost (addrs : List net.Addr) :
    ∀ c ∈ firstIPv4 addrs, c ∉ "localhost".toList := by
  induction addrs with
  | nil => intro c hc; cases hc
  | cons a rest ih =>
    intro c hc
    cases a with
    | IPNet ip mask =>
      rw [firstIPv4] at hc
      split_ifs at hc
      · exact net.String_not_mem_localhost ip c hc
      · exact ih c hc
      · exact ih c hc
    | other n t =>
      rw [firstIPv4] at hc
      exact ih c hc

theorem GetLocalIP_snd (env : Env) (w : World) :
    (GetLocalIP env w).2 = w.call .InterfaceAddrs := by
  unfold GetLocalIP
  split <;> rfl

theorem GetLocalIP_not_mem_localhost (env : Env) (w : World) :
    ∀ c ∈ (GetLocalIP env w).1, c ∉ "localhost".toList := by
  unfold GetLocalIP
  split
  · intro c hc; cases hc
  · exact firstIPv4_not_mem_localhost _

theorem resolver_Get_Register (b : Builder) (w : World) (c : Call) :
    resolver.Get "discovery".toList ((resolver.Register b w).call c) = some b := by
  simp [resolver.Get, resolver.Register, World.call, Builder.Scheme]

theorem registered_call_Register (w : World) (r : Registry) (i : ServiceInstance) :
    (w.call (.Register r i)).registered = w.registered ++ [i] := by
  simp [World.registered, World.call, List.filterMap_append]

theorem registered_Register_call (w : World) (b : Builder) (c : Call)
    (hc : ∀ r i, c ≠ .Register r i) :
    (resolver.Register b (w.call c)).registered = w.registered := by
  cases c with
  | Register r i => exact absurd rfl (hc r i)
  | _ => simp [World.registered, World.call, resolver.Register, List.filterMap_append]

theorem registered_call_InterfaceAddrs (w : World) :
    (w.call .InterfaceAddrs).registered = w.registered := by
  simp [World.registered, World.call, List.filterMap_append]

/-- On a non-empty target with a supported scheme whose client is constructed,
`RegisterService` hands exactly one instance to the backend's `Register`: its
name is the target's path without the leading `/`, its ID is the name, `_` and
the host name, and its endpoints are the fields of the endpoint list in which
`localhost` has been replaced when the local IP probe found an address. -/
theorem RegisterService_registered (env : Env) (target endpoint : Str) (w : World)
    (u : url.URL) (htarget : target ≠ []) (hparse : env.urlParse target = .ok u)
    (hclient : clientConstructed env u) :
    (RegisterService env target endpoint w).2.registered =
      w.registered ++
        [{ ID := strings.TrimPrefix u.Path "/".toList ++ "_".toList ++ id env,
           Name := strings.TrimPrefix u.Path "/".toList,
           Endpoints := strings.Split
             (if strings.Contains endpoint "localhost".toList = true ∧
                 (GetLocalIP env w).1 ≠ [] then
               strings.ReplaceAll endpoint "localhost".toList (GetLocalIP env w).1
             else endpoint) ",".toList }] := by
  have hcons : ¬ (ConsulScheme = DefaultScheme ∨ ConsulScheme = EtcdScheme) := by decide
  unfold RegisterService
  simp only [htarget, hparse, if_false]
  rcases hclient with ⟨hs, hcl⟩ | ⟨hs, hcl⟩
  · simp only [hs, if_true, hcl]
    rw [registered_call_Register, registered_Register_call _ _ _ (by intro r i h; cases h)]
    by_cases h1 : strings.Contains endpoint "localhost".toList = true
    · by_cases h2 : (GetLocalIP env w).1 = []
      · simp only [h1, h2, if_true, if_false, ne_eq, not_true_eq_false, and_false,
          GetLocalIP_snd, registered_call_InterfaceAddrs]
      · simp only [h1, h2, if_true, if_false, ne_eq, not_false_eq_true, and_true,
          GetLocalIP_snd, registered_call_InterfaceAddrs]
    · simp only [h1, Bool.false_eq_true, if_false, false_and]
  · simp only [hs, hcons, if_true, if_false, hcl]
    rw [registered_call_Register, registered_Register_call _ _ _ (by intro r i h; cases h)]
    by_cases h1 : strings.Contains endpoint "localhost".toList = true
    · by_cases h2 : (GetLocalIP env w).1 = []
      · simp only [h1, h2, if_true, if_false, ne_eq, not_true_eq_false, and_false,
          GetLocalIP_snd, registered_call_InterfaceAddrs]
      · simp only [h1, h2, if_true, if_false, ne_eq, not_false_eq_true, and_true,
          GetLocalIP_snd, registered_call_InterfaceAddrs]
    · simp only [h1, Bool.false_eq_true, if_false, false_and]

end driver

namespace driver

/-- C6 as stated fails for the empty target: the call succeeds and the resolver
registry, empty before, still holds no builder for `discovery`. -/
theorem RegisterService_empty_target_installs_nothing :
    (RegisterService exampleEnv [] "localhost:9000".toList freshWorld).1 = none ∧
    resolver.Get "discovery".toList freshWorld = none ∧
    resolver.Get "discovery".toList
      (RegisterService exampleEnv [] "localhost:9000".toList freshWorld).2 = none := by
  decide

/-- C6 as the code has it: for every non-empty target and every endpoint, if
`RegisterService` returns nil then afterwards the resolver registry holds a
builder for the `discovery` scheme, whatever it held before. -/
theorem RegisterService_installs_resolver (env : Env) (target endpoint : Str) (w : World)
    (htarget : target ≠ []) (hok : (RegisterService env target endpoint w).1 = none) :
    ∃ b, resolver.Get "discovery".toList (RegisterService env target endpoint w).2 = some b := by
  unfold RegisterService at hok ⊢
  simp only [htarget, if_false] at hok ⊢
  cases hp : env.urlParse target with
  | error e => simp [hp] at hok
  | ok u =>
    simp only [hp] at hok ⊢
    by_cases h1 : u.Scheme = DefaultScheme ∨ u.Scheme = EtcdScheme
    · simp only [h1, if_true] at hok ⊢
      cases hc : env.etcdNew (strings.Split u.Host ",".toList) with
      | some err =>
        rw [hc] at hok
        cases hok
      | none =>
        simp only [hc]
        exact ⟨_, resolver_Get_Register _ _ _⟩
    · simp only [h1, if_false] at hok ⊢
      by_cases h2 : u.Scheme = ConsulScheme
      · simp only [h2, if_true] at hok ⊢
        cases hc : env.consulNewClient u.Host with
        | some err =>
          rw [hc] at hok
          cases hok
        | none =>
          exact ⟨_, resolver_Get_Register _ _ _⟩
      · simp [h2] at hok

/-- C6 (as amended) at the etcd target of the specification, in a process
that had no resolver registered. -/
theorem RegisterService_installs_resolver_witness :
    "etcd://10.0.0.1:2379,10.0.0.2:2379/svc.order".toList ≠ [] ∧
    (RegisterService exampleEnv "etcd://10.0.0.1:2379,10.0.0.2:2379/svc.order".toList
      "localhost:9000".toList freshWorld).1 = none ∧
    resolver.Get "discovery".toList freshWorld = none ∧
    ∃ b, resolver.Get "discovery".toList
      (RegisterService exampleEnv "etcd://10.0.0.1:2379,10.0.0.2:2379/svc.order".toList
        "localhost:9000".toList freshWorld).2 = some b :=
  ⟨by decide, by decide, by decide,
    RegisterService_installs_resolver exampleEnv
      "etcd://10.0.0.1:2379,10.0.0.2:2379/svc.order".toList "localhost:9000".toList freshWorld
      (by decide) (by decide)⟩

/-- C7: when the endpoint contains `localhost`, the local IP probe returns a
non-empty address, and the target has a supported scheme whose client is
constructed, the instance handed to the backend's `Register` has as endpoints
the fields, split at `,`, of the endpoint in which every `localhost` is
replaced by that address.  Said without the functions of the model: the
endpoint is some pieces joined with `localhost`, no piece holds `localhost`,
the registered endpoints joined with `,` are the same pieces joined with the
address, and no registered endpoint holds a `,` or `localhost`. -/
theorem RegisterService_rewrites_localhost (env : Env) (target endpoint : Str) (w : World)
    (u : url.URL) (hlocal : strings.Contains endpoint "localhost".toList = true)
    (hip : (GetLocalIP env w).1 ≠ [])
    (htarget : target ≠ []) (hparse : env.urlParse target = .ok u)
    (hclient : clientConstructed env u) :
    ∃ i pieces, (RegisterService env target endpoint w).2.registered = w.registered ++ [i] ∧
      i.Endpoints =
        strings.Split (strings.ReplaceAll endpoint "localhost".toList (GetLocalIP env w).1)
          ",".toList ∧
      endpoint = List.intercalate "localhost".toList pieces ∧
      (∀ p ∈ pieces, ¬ "localhost".toList <:+: p) ∧
      List.intercalate ",".toList i.Endpoints =
        List.intercalate (GetLocalIP env w).1 pieces ∧
      (∀ e ∈ i.Endpoints, ',' ∉ e) ∧
      (∀ e ∈ i.Endpoints, ¬ "localhost".toList <:+: e) ∧
      ∀ e ∈ i.Endpoints, strings.Contains e "localhost".toList = false := by
  have hdisj := GetLocalIP_not_mem_localhost env w
  have hne : "localhost".toList ≠ (GetLocalIP env w).1 := by
    intro h
    exact hdisj 'l' (h ▸ by decide) (by decide)
  obtain ⟨pieces, hp1, hp2, hp3⟩ :=
    strings.ReplaceAll_pieces (GetLocalIP env w).1 (by decide) hne endpoint
  have hfree : ∀ e ∈ strings.Split
      (strings.ReplaceAll endpoint "localhost".toList (GetLocalIP env w).1) ",".toList,
      strings.Contains e "localhost".toList = false := by
    intro e he
    exact strings.Contains_eq_false_of_isInfix
      (strings.infix_of_mem_Split (by decide) he)
      (strings.Contains_ReplaceAll_eq_false (by decide) hip hdisj endpoint)
  refine ⟨_, pieces, RegisterService_registered env target endpoint w u htarget hparse hclient,
    ?_, hp1, hp2, ?_, ?_, ?_, ?_⟩
  · simp only [hlocal, hip, ne_eq, not_false_eq_true, and_self, if_true]
  · simp only [hlocal, hip, ne_eq, not_false_eq_true, and_self, if_true]
    rw [← hp3]
    exact strings.intercalate_Split_singleton ',' _
  · simp only [hlocal, hip, ne_eq, not_false_eq_true, and_self, if_true]
    exact strings.not_mem_of_mem_Split_singleton ',' _
  · simp only [hlocal, hip, ne_eq, not_false_eq_true, and_self, if_true]
    intro e he h
    have := hfree e he
    rw [(strings.Contains_iff_isInfix e _).2 h] at this
    cases this
  · simp only [hlocal, hip, ne_eq, not_false_eq_true, and_self, if_true]
    exact hfree

/-- C7 at the etcd target of the specification with two endpoints:
`localhost:9000,localhost:9001` is registered as the two endpoints
`10.1.2.3:9000` and `10.1.2.3:9001` when the probe finds 10.1.2.3. -/
theorem RegisterService_rewrites_localhost_witness :
    strings.Contains "localhost:9000,localhost:9001".toList "localhost".toList = true ∧
    (GetLocalIP exampleEnv freshWorld).1 = "10.1.2.3".toList ∧
    ∃ i, (RegisterService exampleEnv "etcd://10.0.0.1:2379,10.0.0.2:2379/svc.order".toList
        "localhost:9000,localhost:9001".toList freshWorld).2.registered = [i] ∧
      i.Endpoints = ["10.1.2.3:9000".toList, "10.1.2.3:9001".toList] := by
  refine ⟨by decide, by decide, ?_⟩
  obtain ⟨i, pieces, h1, h2, -⟩ :=
    RegisterService_rewrites_localhost exampleEnv
      "etcd://10.0.0.1:2379,10.0.0.2:2379/svc.order".toList
      "localhost:9000,localhost:9001".toList freshWorld
      { Scheme := "etcd".toList, Host := "10.0.0.1:2379,10.0.0.2:2379".toList,
        Path := "/svc.order".toList }
      (by decide) (by decide) (by decide) (by decide) (Or.inl ⟨by decide, rfl⟩)
  exact ⟨i, h1, by rw [h2]; decide⟩

/-- C8: with an empty target, `RegisterService` returns nil and leaves the
state as it was, whatever the endpoint and whatever the outside would answer:
no resolver builder is installed and no call is made to the outside (no local
IP probe, no client construction, no `Register`). -/
theorem RegisterService_empty_target (env : Env) (endpoint : Str) (w : World) :
    RegisterService env [] endpoint w = (none, w) := by
  simp [RegisterService]

/-- C9: for a non-empty target that URL parsing accepts with a scheme other
than `discovery`, `etcd` and `consul`, `RegisterService` fails with the message
`unknown scheme: <scheme>`; the resolver registry is unchanged and the only
calls made, if any, are local IP probes. -/
theorem RegisterService_unknown_scheme (env : Env) (target endpoint : Str) (w : World)
    (u : url.URL) (htarget : target ≠ []) (hparse : env.urlParse target = .ok u)
    (hd : u.Scheme ≠ DefaultScheme) (he : u.Scheme ≠ EtcdScheme)
    (hc : u.Scheme ≠ ConsulScheme) :
    (RegisterService env target endpoint w).1 =
        some (.errorf ("unknown scheme: ".toList ++ u.Scheme)) ∧
      (RegisterService env target endpoint w).2.resolvers = w.resolvers ∧
      ∃ probes, (RegisterService env target endpoint w).2.calls = w.calls ++ probes ∧
        ∀ c ∈ probes, c = Call.InterfaceAddrs := by
  unfold RegisterService
  simp only [htarget, hparse, if_false, hd, he, hc, or_self, GetLocalIP_snd]
  refine ⟨trivial, ?_, ?_⟩
  · split_ifs <;> rfl
  · split_ifs
    · exact ⟨[.InterfaceAddrs], rfl, by simp⟩
    · exact ⟨[.InterfaceAddrs], rfl, by simp⟩
    · exact ⟨[], by simp, by simp⟩

/-- C9 at `redis://x/y`. -/
theorem RegisterService_unknown_scheme_witness :
    url.Parse "redis://x/y".toList =
      .ok { Scheme := "redis".toList, Host := "x".toList, Path := "/y".toList } ∧
    (RegisterService exampleEnv "redis://x/y".toList "ep".toList freshWorld).1 =
      some (.errorf "unknown scheme: redis".toList) ∧
    (RegisterService exampleEnv "redis://x/y".toList "ep".toList freshWorld).2.resolvers = [] :=
  have h := RegisterService_unknown_scheme exampleEnv "redis://x/y".toList "ep".toList freshWorld
    { Scheme := "redis".toList, Host := "x".toList, Path := "/y".toList }
    (by decide) (by decide) (by decide) (by decide) (by decide)
  ⟨by decide, h.1, h.2.1⟩

/-- C10: for a non-empty target with a supported scheme whose client is
constructed, the instance handed to the backend's `Register` has as name the
target's path without its leading `/` and as ID the name, `_` and the host name
captured when the package was loaded (empty when that probe failed); a second
call with the same target, whatever its endpoint and the state it starts from,
registers the same ID. -/
theorem RegisterService_instance_id (env : Env) (target : Str) (endpoint endpoint' : Str)
    (w w' : World) (u : url.URL) (htarget : target ≠ [])
    (hparse : env.urlParse target = .ok u) (hclient : clientConstructed env u) :
    ∃ i i', (RegisterService env target endpoint w).2.registered = w.registered ++ [i] ∧
      (RegisterService env target endpoint' w').2.registered = w'.registered ++ [i'] ∧
      i.Name = strings.TrimPrefix u.Path "/".toList ∧
      i.ID = i.Name ++ "_".toList ++ id env ∧
      (∀ name, env.Hostname = .ok name → i.ID = i.Name ++ "_".toList ++ name) ∧
      (∀ err, env.Hostname = .error err → i.ID = i.Name ++ "_".toList) ∧
      i'.ID = i.ID := by
  refine ⟨_, _, RegisterService_registered env target endpoint w u htarget hparse hclient,
    RegisterService_registered env target endpoint' w' u htarget hparse hclient,
    rfl, rfl, ?_, ?_, rfl⟩
  · intro name h
    simp only [id, h]
  · intro err h
    simp only [id, h, List.append_nil]

/-- C10 at the Consul target of the specification on the host `box`. -/
theorem RegisterService_instance_id_witness :
    ∃ i i', (RegisterService exampleEnv "consul://10.0.0.5:8500/svc.pay".toList
        "10.0.0.6:9001,10.0.0.7:9001".toList freshWorld).2.registered = [i] ∧
      (RegisterService exampleEnv "consul://10.0.0.5:8500/svc.pay".toList
        "localhost:9001".toList freshWorld).2.registered = [i'] ∧
      i.Name = "svc.pay".toList ∧ i.ID = "svc.pay_box".toList ∧
      i'.ID = "svc.pay_box".toList := by
  obtain ⟨i, i', h1, h2, h3, h4, -, -, h5⟩ :=
    RegisterService_instance_id exampleEnv "consul://10.0.0.5:8500/svc.pay".toList
      "10.0.0.6:9001,10.0.0.7:9001".toList "localhost:9001".toList freshWorld freshWorld
      { Scheme := "consul".toList, Host := "10.0.0.5:8500".toList, Path := "/svc.pay".toList }
      (by decide) (by decide) (Or.inr ⟨by decide, rfl⟩)
  have hn : i.Name = "svc.pay".toList := by rw [h3]; decide
  have hi : i.ID = "svc.pay_box".toList := by rw [h4, hn]; decide
  exact ⟨i, i', h1, h2, hn, hi, by rw [h5, hi]⟩

end driver
